import Mathlib

/-
Verification of the `dots` braille-art renderer.

The Go sources are shallowly embedded: 8-bit channel values become `Nat`
(all Go arithmetic below is overflow-free on the uint8/uint16 ranges the
code uses, which is noted at each definition), Go `int` becomes `Int`,
strings become `List Char`, and the RGBA pixel grid becomes a record with
explicit width/height and a pixel function.  Floating-point computations
of the source are embedded exactly: the three luminance coefficients are
dyadic rationals, so the whole IEEE-754 double computation is reproduced
with integer arithmetic at a fixed power-of-two scale together with an
exact round-to-nearest-even step (`rnd53`).
-/

set_option maxRecDepth 10000
set_option maxHeartbeats 2000000

namespace Dots

/-! ## Color quantization (color.go) -/

/-- Model of Go `max3` (the float64 round trip is exact on uint8 values). -/
def max3 (a b c : Nat) : Nat := max a (max b c)

/-- Model of Go `min3` (the float64 round trip is exact on uint8 values). -/
def min3 (a b c : Nat) : Nat := min a (min b c)

/-- Model of Go `absDiff` on uint8 values (no overflow: the branch
subtracts the smaller from the larger). -/
def absDiff (a b : Nat) : Nat := if a > b then a - b else b - a

/-- Model of Go `isGrayscale`: `max-min < 10` on uint8 values (the Go
subtraction `max-min` cannot wrap because `max ≥ min`). -/
def isGrayscale (r g b : Nat) : Bool := max3 r g b - min3 r g b < 10

/-- Model of Go `quantizeGrayscale`.  The Go code computes in `uint16`
(max intermediate value `(237-8)*24 = 5496 < 2^16`), so `Nat` arithmetic
is exact. -/
def quantizeGrayscale (r g b : Nat) : Nat :=
  let avg := (r + g + b) / 3
  if avg < 8 then 16
  else if avg ≥ 238 then 231
  else
    let step := (avg - 8) * 24 / 229
    let step' := if step > 23 then 23 else step
    232 + step'

/-- The fixed 6-level cube channel values of Go `quantizeChannel`. -/
def levels : List Nat := [0, 95, 135, 175, 215, 255]

/-- Model of Go `quantizeChannel`: linear scan over `levels` keeping the
first index of minimal distance, starting from `minDist = 255`,
`nearest = 0`.  The fold state is `(i, minDist, nearest)`. -/
def quantizeChannel (c : Nat) : Nat :=
  (levels.foldl
    (fun st level =>
      let dist := absDiff c level
      if dist < st.2.1 then (st.1 + 1, dist, st.1) else (st.1 + 1, st.2.1, st.2.2))
    (0, 255, 0)).2.2

/-- Model of Go `quantizeRGBCube` (max value `16+180+30+5 = 231`, no
uint8 overflow). -/
def quantizeRGBCube (r g b : Nat) : Nat :=
  16 + 36 * quantizeChannel r + 6 * quantizeChannel g + quantizeChannel b

/-- Model of Go `quantizeRGB`. -/
def quantizeRGB (r g b : Nat) : Nat :=
  if isGrayscale r g b then quantizeGrayscale r g b else quantizeRGBCube r g b

/-- Transcription of the grayscale branch as the specification states it:
truncating average, cutoffs at 8 and 238, `step = (avg-8)*24/229` clamped
to at most 23, result `232+step`. -/
def grayscaleSpec (r g b : Nat) : Nat :=
  let avg := (r + g + b) / 3
  if avg < 8 then 16
  else if 238 ≤ avg then 231
  else 232 + min ((avg - 8) * 24 / 229) 23

/-- The cube level value at index `i` (out-of-range defaults to 0, never
used for indices below 6). -/
def levelAt (i : Nat) : Nat := levels.getD i 0

/-- C1: on every low-saturation uint8 triple (`max-min < 10`) `quantizeRGB`
takes the grayscale branch and returns 16 below average 8, 231 from
average 238 up, and otherwise `232 + min ((avg-8)*24/229) 23`; in
particular black ↦ 16, white ↦ 231 and mid gray ↦ 244. -/
theorem quantizeRGB_grayscale_claim :
    (∀ r g b : Nat, r < 256 → g < 256 → b < 256 →
      max3 r g b - min3 r g b < 10 → quantizeRGB r g b = grayscaleSpec r g b)
    ∧ quantizeRGB 0 0 0 = 16 ∧ quantizeRGB 255 255 255 = 231
    ∧ quantizeRGB 128 128 128 = 244 := by
  refine ⟨fun r g b _ _ _ h => ?_, by decide, by decide, by decide⟩
  have hg : isGrayscale r g b = true := by
    simp only [isGrayscale, decide_eq_true_eq]
    omega
  simp only [quantizeRGB, hg, if_true, quantizeGrayscale, grayscaleSpec]
  split_ifs <;> omega

/-- Witness for C1 at the concrete triple (128,128,128). -/
theorem quantizeRGB_grayscale_claim_witness :
    max3 128 128 128 - min3 128 128 128 < 10
    ∧ quantizeRGB 128 128 128 = grayscaleSpec 128 128 128 :=
  ⟨by decide,
    quantizeRGB_grayscale_claim.1 128 128 128 (by decide) (by decide) (by decide) (by decide)⟩

/-- C2: on every saturated uint8 triple (`max-min ≥ 10`) `quantizeRGB`
combines the per-channel nearest-level indices as `16 + 36*r6 + 6*g6 + b6`,
where each channel index is nearest in `{0,95,135,175,215,255}` with the
lower index winning exact-distance ties; in particular pure red ↦ 196,
pure green ↦ 46, pure blue ↦ 21. -/
theorem quantizeRGB_cube_claim :
    (∀ r g b : Nat, r < 256 → g < 256 → b < 256 →
      10 ≤ max3 r g b - min3 r g b →
      quantizeRGB r g b =
        16 + 36 * quantizeChannel r + 6 * quantizeChannel g + quantizeChannel b)
    ∧ (∀ c : Nat, c < 256 → ∀ j : Nat, j < 6 →
        absDiff c (levelAt (quantizeChannel c)) ≤ absDiff c (levelAt j)
        ∧ (absDiff c (levelAt j) = absDiff c (levelAt (quantizeChannel c)) →
            quantizeChannel c ≤ j))
    ∧ quantizeRGB 255 0 0 = 196 ∧ quantizeRGB 0 255 0 = 46
    ∧ quantizeRGB 0 0 255 = 21 := by
  refine ⟨fun r g b _ _ _ h => ?_, by decide, by decide, by decide, by decide⟩
  have hg : isGrayscale r g b = false := by
    simp only [isGrayscale, decide_eq_false_iff_not]
    omega
  simp only [quantizeRGB, hg, if_false, Bool.false_eq_true, quantizeRGBCube]

/-- Witness for C2 at the concrete triple (200,30,40). -/
theorem quantizeRGB_cube_claim_witness :
    10 ≤ max3 200 30 40 - min3 200 30 40
    ∧ quantizeRGB 200 30 40 =
        16 + 36 * quantizeChannel 200 + 6 * quantizeChannel 30 + quantizeChannel 40 :=
  ⟨by decide,
    quantizeRGB_cube_claim.1 200 30 40 (by decide) (by decide) (by decide) (by decide)⟩

/-! ## Bit-exact model of IEEE-754 double arithmetic

The Go code performs its aspect-ratio arithmetic in float64 and its
luminance computation in float64.  Every finite double is a dyadic
rational `(-1)^neg * m * 2^e` with a significand `m` of at most 53 bits,
so doubles are embedded as such triples over `Nat`/`Int`, and each Go
operation is followed by the IEEE rounding to 53 significant bits,
nearest, ties to even (`rnd53` for values produced at integer scale, and
a remainder-aware variant inside `divFMag` for quotients).  On the value
ranges of this program no overflow, underflow or subnormal arises. -/

/-- Fueled bit length (position of the most significant bit plus one);
fuel 128 is enough for every value in the luminance computation, and the
division model below calls the auxiliary with fuel 256 for its wider
intermediates. -/
def bitLenAux : Nat → Nat → Nat
  | 0, _ => 0
  | fuel+1, n => if n = 0 then 0 else bitLenAux fuel (n / 2) + 1

/-- Bit length of a natural number below `2^128`. -/
def bitLen (n : Nat) : Nat := bitLenAux 128 n

/-- Round a positive numerator to 53 significant bits, nearest, ties to
even: exactly an IEEE-754 double rounding of a value scaled by a fixed
power of two. -/
def rnd53 (n : Nat) : Nat :=
  if n < 2 ^ 53 then n
  else
    let sh := bitLen n - 53
    let q := n / 2 ^ sh
    let r := n % 2 ^ sh
    let half := 2 ^ (sh - 1)
    if half < r ∨ (r = half ∧ q % 2 = 1) then (q + 1) * 2 ^ sh else q * 2 ^ sh

/-- A nonnegative finite double: sign, 53-bit significand, binary
exponent; the value is `(-1)^neg * m * 2^e`. -/
structure F64 where
  neg : Bool
  m : Nat
  e : Int
deriving DecidableEq

/-- Conversion `float64(n)` of an integer: round the magnitude to 53
significant bits (exact below `2^53`). -/
def floatOfInt (n : Int) : F64 := ⟨decide (n < 0), rnd53 n.natAbs, 0⟩

/-- Double multiplication: multiply significands exactly, then round to
53 bits (exponents never leave the finite range on the inputs the code
meets, so overflow and subnormals do not arise). -/
def mulF (x y : F64) : F64 := ⟨xor x.neg y.neg, rnd53 (x.m * y.m), x.e + y.e⟩

/-- Correctly rounded (nearest, ties to even) quotient of two
significands: scale the dividend so the integer quotient has more than
53 bits, then round it to 53 bits, using the division remainder as the
sticky information for ties. -/
def divFMag (m1 m2 : Nat) : Nat × Int :=
  if m1 = 0 ∨ m2 = 0 then (0, 0)
  else
    let k := 54 + bitLenAux 256 m2
    let q0 := m1 * 2 ^ k / m2
    let r0 := m1 * 2 ^ k % m2
    let sh := bitLenAux 256 q0 - 53
    let q := q0 / 2 ^ sh
    let r := q0 % 2 ^ sh
    let half := 2 ^ (sh - 1)
    (if half < r ∨ (r = half ∧ (0 < r0 ∨ q % 2 = 1)) then q + 1 else q,
      (sh : Int) - (k : Int))

/-- Double division via `divFMag` (division by zero yields the zero
record; the claims only use positive divisors). -/
def divF (x y : F64) : F64 :=
  ⟨xor x.neg y.neg, (divFMag x.m y.m).1, x.e - y.e + (divFMag x.m y.m).2⟩

/-- Go's `int(f)` conversion: truncation toward zero. -/
def truncF (x : F64) : Int :=
  let mag : Int := if 0 ≤ x.e then (x.m : Int) * 2 ^ x.e.toNat
    else ((x.m / 2 ^ (-x.e).toNat : Nat) : Int)
  if x.neg then -mag else mag

/-- The Go expression `int(float64(a) * float64(b) / float64(c) / 2.0)`. -/
def aspectDiv2 (a b c : Int) : Int :=
  truncF (divF (divF (mulF (floatOfInt a) (floatOfInt b)) (floatOfInt c)) (floatOfInt 2))

/-- The Go expression `int(float64(a) * float64(b) / float64(c) * 2.0)`. -/
def aspectMul2 (a b c : Int) : Int :=
  truncF (mulF (divF (mulF (floatOfInt a) (floatOfInt b)) (floatOfInt c)) (floatOfInt 2))

/-- Bit length of zero is zero at every fuel. -/
theorem bitLenAux_zero (fuel : Nat) : bitLenAux fuel 0 = 0 := by
  cases fuel <;> simp [bitLenAux]

/-- The fueled bit length is correct below `2^fuel`. -/
theorem bitLenAux_spec : ∀ (fuel n : Nat), 0 < n → n < 2 ^ fuel →
    0 < bitLenAux fuel n ∧ 2 ^ (bitLenAux fuel n - 1) ≤ n ∧ n < 2 ^ bitLenAux fuel n := by
  intro fuel
  induction fuel with
  | zero => intro n hn hlt; omega
  | succ f ih =>
    intro n hn hlt
    rw [bitLenAux, if_neg (by omega)]
    by_cases h2 : n / 2 = 0
    · have hn1 : n = 1 := by omega
      subst hn1
      simp [h2, bitLenAux_zero]
    · have hlt2 : n / 2 < 2 ^ f := by
        rw [pow_succ] at hlt
        omega
      obtain ⟨hp, hlo, hhi⟩ := ih (n / 2) (by omega) hlt2
      refine ⟨by omega, ?_, ?_⟩
      · have : 2 ^ (bitLenAux f (n / 2) + 1 - 1) = 2 * 2 ^ (bitLenAux f (n / 2) - 1) := by
          rw [Nat.add_sub_cancel, ← pow_succ']
          congr 1
          omega
        rw [this]
        omega
      · rw [pow_succ]
        omega

/-- Bit-length values are determined by the sandwich. -/
theorem bitLenAux_eq (fuel n L : Nat) (hn : 0 < n) (hfuel : n < 2 ^ fuel)
    (hL : 0 < L) (hlo : 2 ^ (L - 1) ≤ n) (hhi : n < 2 ^ L) :
    bitLenAux fuel n = L := by
  obtain ⟨hp, hlo', hhi'⟩ := bitLenAux_spec fuel n hn hfuel
  by_contra hne
  rcases Nat.lt_or_ge (bitLenAux fuel n) L with h | h
  · have : 2 ^ (bitLenAux fuel n) ≤ 2 ^ (L - 1) := Nat.pow_le_pow_right (by omega) (by omega)
    omega
  · have : 2 ^ L ≤ 2 ^ (bitLenAux fuel n - 1) := Nat.pow_le_pow_right (by omega) (by omega)
    omega

/-- `rnd53` is the identity below `2^53`. -/
theorem rnd53_id (n : Nat) (h : n < 2 ^ 53) : rnd53 n = n := by
  rw [rnd53, if_pos h]

/-- Half-ulp bound for `rnd53` at scale `2^53`, valid on all inputs the
model meets. -/
theorem rnd53_err (n : Nat) (h : n < 2 ^ 128) :
    2 ^ 53 * n ≤ 2 ^ 53 * rnd53 n + n ∧ 2 ^ 53 * rnd53 n ≤ 2 ^ 53 * n + n := by
  by_cases hs : n < 2 ^ 53
  · rw [rnd53_id n hs]; omega
  · simp only [rnd53, if_neg (show ¬ n < 2 ^ 53 by omega), bitLen]
    obtain ⟨hp, hlo, hhi⟩ := bitLenAux_spec 128 n (by omega) h
    have hbl : 54 ≤ bitLenAux 128 n := by
      by_contra hb
      have : 2 ^ (bitLenAux 128 n) ≤ 2 ^ 53 := Nat.pow_le_pow_right (by omega) (by omega)
      omega
    set sh := bitLenAux 128 n - 53 with hsh
    set H := 2 ^ (sh - 1) with hH
    set S := 2 ^ sh with hS
    set q := n / S with hq
    set r := n % S with hr
    have hSH : S = 2 * H := by
      rw [hS, hH, ← pow_succ']
      congr 1
      omega
    have hqr : S * q + r = n := Nat.div_add_mod n S
    have hrS : r < S := Nat.mod_lt n (by positivity)
    have hHn : H * 2 ^ 53 ≤ n := by
      have he : H * 2 ^ 53 = 2 ^ (bitLenAux 128 n - 1) := by
        rw [hH, ← pow_add]
        congr 1
        omega
      rw [he]
      exact hlo
    split_ifs with hcond
    · have hub : S - r ≤ H := by
        rcases hcond with hlt | ⟨heq, -⟩ <;> omega
      have hgoal : (q + 1) * S = S * q + S := by ring
      rw [hgoal]
      omega
    · push_neg at hcond
      have hub : r ≤ H := by
        rcases Nat.lt_or_ge r H with h' | h' <;> omega
      have hgoal : q * S = S * q := by ring
      rw [hgoal]
      omega

/-- `rnd53` of a positive number is positive. -/
theorem rnd53_pos (n : Nat) (hn : 0 < n) (h : n < 2 ^ 128) : 0 < rnd53 n := by
  obtain ⟨h1, -⟩ := rnd53_err n h
  nlinarith

/-- Rounding a scaled quotient at granularity `S = 2*H` moves it by at
most half a step: abstract sandwich behind `divFMag`. -/
theorem round_sandwich (m2 S H q r r0 mq X : Nat)
    (hS : S = 2 * H) (hX : X = m2 * (S * q + r) + r0)
    (hr : r < S) (hr0 : r0 < m2)
    (hcase : (mq = q + 1 ∧ (H < r ∨ (r = H ∧ (0 < r0 ∨ q % 2 = 1))))
      ∨ (mq = q ∧ r ≤ H ∧ (r = H → r0 = 0))) :
    2 * X ≤ (2 * mq * m2 + m2) * S ∧ 2 * mq * m2 * S ≤ 2 * X + m2 * S := by
  have hmr : m2 * r + m2 ≤ m2 * S := by
    calc m2 * r + m2 = m2 * (r + 1) := by ring
      _ ≤ m2 * S := Nat.mul_le_mul_left m2 hr
  rcases hcase with ⟨hmq, hup⟩ | ⟨hmq, hdl, hdr⟩
  · subst hmq
    have hHr : H ≤ r := by rcases hup with h | ⟨h, -⟩ <;> omega
    have hmH : m2 * H ≤ m2 * r := Nat.mul_le_mul_left m2 hHr
    constructor <;> nlinarith [hX, hmr, hmH, hr0, hS]
  · subst hmq
    rcases Nat.lt_or_ge r H with hrH | hrH
    · have hmrH : m2 * r + m2 ≤ m2 * H := by
        calc m2 * r + m2 = m2 * (r + 1) := by ring
          _ ≤ m2 * H := Nat.mul_le_mul_left m2 hrH
      constructor <;> nlinarith [hX, hmrH, hr0, hS]
    · have hreq : r = H := by omega
      have hr00 : r0 = 0 := hdr hreq
      subst hreq
      subst hr00
      constructor <;> nlinarith [hX, hS]

/-- Correctness of `divFMag` on a positive dividend below `2^53` and a
positive divisor below `2^64`: the result is a 53-bit significand with a
nonpositive exponent `-K`, within half an ulp (`2^(-K-1)`) of the exact
quotient. -/
theorem divFMag_spec (m1 m2 : Nat) (h1 : 0 < m1) (h1b : m1 < 2 ^ 53)
    (h2 : 0 < m2) (h2b : m2 < 2 ^ 64) :
    ∃ K : Nat, (divFMag m1 m2).2 = -(K : Int)
      ∧ 2 ^ 52 ≤ (divFMag m1 m2).1 ∧ (divFMag m1 m2).1 ≤ 2 ^ 53
      ∧ 2 ^ (K + 1) * m1 ≤ 2 * (divFMag m1 m2).1 * m2 + m2
      ∧ 2 * (divFMag m1 m2).1 * m2 ≤ 2 ^ (K + 1) * m1 + m2 := by
  simp only [divFMag, if_neg (show ¬ (m1 = 0 ∨ m2 = 0) by omega)]
  obtain ⟨hbp2, hlo2, hhi2⟩ := bitLenAux_spec 256 m2 h2
    (lt_trans h2b (Nat.pow_lt_pow_right (by omega) (by omega)))
  set bl2 := bitLenAux 256 m2 with hbl2
  have hbl2le : bl2 ≤ 64 := by
    by_contra hb
    have : 2 ^ 64 ≤ 2 ^ (bl2 - 1) := Nat.pow_le_pow_right (by omega) (by omega)
    omega
  set k := 54 + bl2 with hk
  set q0 := m1 * 2 ^ k / m2 with hq0
  set r0 := m1 * 2 ^ k % m2 with hr0
  have hq0lo : 2 ^ 54 ≤ q0 := by
    have h1' : 2 ^ k / 2 ^ bl2 ≤ q0 := by
      calc 2 ^ k / 2 ^ bl2 ≤ 2 ^ k / m2 :=
            Nat.div_le_div_left (by omega) h2
        _ ≤ m1 * 2 ^ k / m2 :=
            Nat.div_le_div_right (Nat.le_mul_of_pos_left _ h1)
    have he : 2 ^ k / 2 ^ bl2 = 2 ^ 54 := by
      rw [hk, pow_add, Nat.mul_div_cancel _ (by positivity)]
    omega
  have hq0hi : q0 < 2 ^ (53 + k) := by
    have : q0 ≤ m1 * 2 ^ k := Nat.div_le_self _ _
    have h2' : m1 * 2 ^ k < 2 ^ 53 * 2 ^ k := by
      have := Nat.mul_le_mul_right (2 ^ k) (show m1 + 1 ≤ 2 ^ 53 by omega)
      nlinarith [pow_pos (show 0 < 2 by omega) k]
    rw [pow_add]
    omega
  have hq0fuel : q0 < 2 ^ 256 := by
    have : (2 : Nat) ^ (53 + k) ≤ 2 ^ 256 := Nat.pow_le_pow_right (by omega) (by omega)
    omega
  obtain ⟨hbp0, hlo0, hhi0⟩ := bitLenAux_spec 256 q0 (by omega) hq0fuel
  set bl0 := bitLenAux 256 q0 with hbl0
  have hbl0lo : 55 ≤ bl0 := by
    by_contra hb
    have : 2 ^ bl0 ≤ 2 ^ 54 := Nat.pow_le_pow_right (by omega) (by omega)
    omega
  have hbl0hi : bl0 ≤ 53 + k := by
    by_contra hb
    have : 2 ^ (53 + k) ≤ 2 ^ (bl0 - 1) := Nat.pow_le_pow_right (by omega) (by omega)
    omega
  set sh := bl0 - 53 with hsh
  set q := q0 / 2 ^ sh with hq
  set r := q0 % 2 ^ sh with hr
  set H := 2 ^ (sh - 1) with hH
  have hiq : 2 ^ sh * q + r = q0 := Nat.div_add_mod q0 (2 ^ sh)
  have hiX : m2 * q0 + r0 = m1 * 2 ^ k := Nat.div_add_mod (m1 * 2 ^ k) m2
  have hrlt : r < 2 ^ sh := Nat.mod_lt _ (by positivity)
  have hr0lt : r0 < m2 := Nat.mod_lt _ h2
  have hSH : 2 ^ sh = 2 * H := by
    rw [hH, ← pow_succ']
    congr 1
    omega
  have hqlo : 2 ^ 52 ≤ q := by
    rw [hq, Nat.le_div_iff_mul_le (by positivity)]
    have he : 2 ^ 52 * 2 ^ sh = 2 ^ (bl0 - 1) := by
      rw [← pow_add]
      congr 1
      omega
    omega
  have hqhi : q < 2 ^ 53 := by
    rw [hq, Nat.div_lt_iff_lt_mul (by positivity)]
    have he : 2 ^ 53 * 2 ^ sh = 2 ^ bl0 := by
      rw [← pow_add]
      congr 1
      omega
    omega
  have hX : m1 * 2 ^ k = m2 * (2 ^ sh * q + r) + r0 := by rw [hiq]; omega
  have hcancel : ∀ mq : Nat, 2 * (m1 * 2 ^ k) ≤ (2 * mq * m2 + m2) * 2 ^ sh →
      2 ^ (k - sh + 1) * m1 ≤ 2 * mq * m2 + m2 := by
    intro mq hmul
    refine Nat.le_of_mul_le_mul_right ?_ (show 0 < 2 ^ sh by positivity)
    calc 2 ^ (k - sh + 1) * m1 * 2 ^ sh = 2 ^ (k + 1) * m1 := by
          rw [mul_right_comm, ← pow_add]
          congr 2
          omega
      _ = 2 * (m1 * 2 ^ k) := by ring
      _ ≤ (2 * mq * m2 + m2) * 2 ^ sh := hmul
  have hcancel2 : ∀ mq : Nat, 2 * mq * m2 * 2 ^ sh ≤ 2 * (m1 * 2 ^ k) + m2 * 2 ^ sh →
      2 * mq * m2 ≤ 2 ^ (k - sh + 1) * m1 + m2 := by
    intro mq hmul
    refine Nat.le_of_mul_le_mul_right ?_ (show 0 < 2 ^ sh by positivity)
    calc 2 * mq * m2 * 2 ^ sh ≤ 2 * (m1 * 2 ^ k) + m2 * 2 ^ sh := hmul
      _ = 2 ^ (k - sh + 1) * m1 * 2 ^ sh + m2 * 2 ^ sh := by
          rw [mul_right_comm, ← pow_add]
          have he : k - sh + 1 + sh = k + 1 := by omega
          rw [he]
          ring
      _ = (2 ^ (k - sh + 1) * m1 + m2) * 2 ^ sh := by ring
  refine ⟨k - sh, by omega, ?_, ?_, ?_, ?_⟩
  · split_ifs <;> omega
  · split_ifs <;> omega
  · split_ifs with hc
    · exact hcancel (q + 1)
        (round_sandwich m2 (2 ^ sh) H q r r0 (q + 1) (m1 * 2 ^ k) hSH hX hrlt hr0lt
          (Or.inl ⟨rfl, hc⟩)).1
    · push_neg at hc
      exact hcancel q
        (round_sandwich m2 (2 ^ sh) H q r r0 q (m1 * 2 ^ k) hSH hX hrlt hr0lt
          (Or.inr ⟨rfl, by omega, fun hrH => by have := hc.2 hrH; omega⟩)).1
  · split_ifs with hc
    · exact hcancel2 (q + 1)
        (round_sandwich m2 (2 ^ sh) H q r r0 (q + 1) (m1 * 2 ^ k) hSH hX hrlt hr0lt
          (Or.inl ⟨rfl, hc⟩)).2
    · push_neg at hc
      exact hcancel2 q
        (round_sandwich m2 (2 ^ sh) H q r r0 q (m1 * 2 ^ k) hSH hX hrlt hr0lt
          (Or.inr ⟨rfl, by omega, fun hrH => by have := hc.2 hrH; omega⟩)).2

/-- Truncating half the rounded quotient reproduces the exact integer
division when the dividend is below `2^52`: the rounded quotient
`M * 2^(-K-1)` of `n` by `2*cn` cannot cross an integer boundary, because
the boundary distance `1/cn` exceeds the half-ulp `2^(-K-1)`. -/
theorem float_div_floor (n cn cm M K : Nat)
    (hn1 : 0 < n) (hn : n < 2 ^ 52) (hcn : 0 < cn) (hcnb : cn < 2 ^ 63)
    (hcmlo : 2 ^ 53 * cn ≤ 2 ^ 53 * cm + cn) (hcmhi : 2 ^ 53 * cm ≤ 2 ^ 53 * cn + cn)
    (hMlo : 2 ^ 52 ≤ M) (hMhi : M ≤ 2 ^ 53)
    (hs1 : 2 ^ (K + 1) * n ≤ 2 * M * cm + cm)
    (hs2 : 2 * M * cm ≤ 2 ^ (K + 1) * n + cm) :
    M / 2 ^ (K + 1) = n / (2 * cn) := by
  set Q := 2 ^ K with hQdef
  have hQ1 : 1 ≤ Q := Nat.one_le_two_pow
  have hQpow : 2 ^ (K + 1) = 2 * Q := by rw [hQdef, pow_succ']
  rw [hQpow] at hs1 hs2 ⊢
  by_cases hsmall : cn < 2 ^ 53
  · have hcmeq : cn = cm := by omega
    subst hcmeq
    have hp1 : 2 ^ 53 * cn ≤ 2 * M * cn :=
      Nat.mul_le_mul_right cn (show 2 ^ 53 ≤ 2 * M by omega)
    have hp2 : 2 * Q * n + 2 * Q ≤ 2 ^ 53 * Q := by
      have h := Nat.mul_le_mul_left (2 * Q) (show n + 1 ≤ 2 ^ 52 by omega)
      have e1 : 2 * Q * (n + 1) = 2 * Q * n + 2 * Q := by ring
      have e2 : 2 * Q * 2 ^ 52 = 2 ^ 53 * Q := by ring
      omega
    have hcnQ : cn < Q := by omega
    have hd := Nat.div_add_mod n (2 * cn)
    have hm := Nat.mod_lt n (show 0 < 2 * cn by omega)
    set t := n / (2 * cn) with ht
    have he1 : (t + 1) * (2 * cn) = 2 * cn * t + 2 * cn := by ring
    have ht1 : 2 * cn * t ≤ n := by omega
    have ht2 : n + 1 ≤ (t + 1) * (2 * cn) := by omega
    have hgU : M < (t + 1) * (2 * Q) := by
      have hu1 : Q * (n + 1) ≤ Q * ((t + 1) * (2 * cn)) := Nat.mul_le_mul_left Q ht2
      have hmul : M * (2 * cn) < (t + 1) * (2 * Q) * (2 * cn) := by
        have e1 : M * (2 * cn) = 2 * M * cn := by ring
        have e2 : (t + 1) * (2 * Q) * (2 * cn) = 2 * (Q * ((t + 1) * (2 * cn))) := by ring
        have e3 : Q * (n + 1) = Q * n + Q := by ring
        have e4 : 2 * Q * n = 2 * (Q * n) := by ring
        omega
      exact lt_of_mul_lt_mul_right hmul (Nat.zero_le _)
    have hgL : t * (2 * Q) ≤ M := by
      have hL1 : Q * (2 * cn * t) ≤ Q * n := Nat.mul_le_mul_left Q ht1
      have hL2 : 4 * Q * t ≤ 2 * M + 1 := by
        refine Nat.le_of_mul_le_mul_right ?_ hcn
        have e1 : 4 * Q * t * cn = 2 * (Q * (2 * cn * t)) := by ring
        have e2 : (2 * M + 1) * cn = 2 * M * cn + cn := by ring
        have e3 : 2 * Q * n = 2 * (Q * n) := by ring
        omega
      have e4 : t * (2 * Q) * 2 = 4 * Q * t := by ring
      omega
    exact Nat.div_eq_of_lt_le hgL hgU
  · have hbig : 2 ^ 53 ≤ cn := by omega
    have hcm1 : 2 ^ 53 - 1 ≤ cm := by omega
    have ht0 : n / (2 * cn) = 0 := Nat.div_eq_of_lt (by omega)
    rw [ht0]
    refine Nat.div_eq_of_lt ?_
    by_contra hb
    push_neg at hb
    have b1 : 4 * Q * cm ≤ 2 * M * cm :=
      Nat.mul_le_mul_right cm (show 4 * Q ≤ 2 * M by omega)
    have b2 : 2 ^ 53 * cm ≤ 2 * M * cm :=
      Nat.mul_le_mul_right cm (show 2 ^ 53 ≤ 2 * M by omega)
    have b3 : Q * (2 ^ 53 - 1) ≤ Q * cm := Nat.mul_le_mul_left Q hcm1
    have b4 : 2 * Q * n + 2 * Q ≤ 2 ^ 53 * Q := by
      have h := Nat.mul_le_mul_left (2 * Q) (show n + 1 ≤ 2 ^ 52 by omega)
      have e1 : 2 * Q * (n + 1) = 2 * Q * n + 2 * Q := by ring
      have e2 : 2 * Q * 2 ^ 52 = 2 ^ 53 * Q := by ring
      omega
    have e3 : 4 * Q * cm = 4 * (Q * cm) := by ring
    have e4 : 2 * Q * n = 2 * (Q * n) := by ring
    omega

/-- Doubling the rounded quotient reproduces the exact integer division
when the dividend is below `2^52`: `2 * M * 2^(-K)` of `n` by `cn` cannot
cross an integer boundary, because the boundary distance `1/(2*cn)`
exceeds the doubled half-ulp `2^(-K)`. -/
theorem float_mul_floor (n cn cm M K : Nat)
    (hn1 : 0 < n) (hn : n < 2 ^ 52) (hcn : 0 < cn) (hcnb : cn < 2 ^ 63)
    (hcmlo : 2 ^ 53 * cn ≤ 2 ^ 53 * cm + cn) (hcmhi : 2 ^ 53 * cm ≤ 2 ^ 53 * cn + cn)
    (hMlo : 2 ^ 52 ≤ M) (hMhi : M ≤ 2 ^ 53)
    (hs1 : 2 ^ (K + 1) * n ≤ 2 * M * cm + cm)
    (hs2 : 2 * M * cm ≤ 2 ^ (K + 1) * n + cm) :
    M * 2 / 2 ^ K = 2 * n / cn := by
  set Q := 2 ^ K with hQdef
  have hQ1 : 1 ≤ Q := Nat.one_le_two_pow
  have hQpow : 2 ^ (K + 1) = 2 * Q := by rw [hQdef, pow_succ']
  rw [hQpow] at hs1 hs2
  by_cases hsmall : cn < 2 ^ 53
  · have hcmeq : cn = cm := by omega
    subst hcmeq
    have hp1 : 2 ^ 53 * cn ≤ 2 * M * cn :=
      Nat.mul_le_mul_right cn (show 2 ^ 53 ≤ 2 * M by omega)
    have hp2 : 2 * Q * n + 2 * Q ≤ 2 ^ 53 * Q := by
      have h := Nat.mul_le_mul_left (2 * Q) (show n + 1 ≤ 2 ^ 52 by omega)
      have e1 : 2 * Q * (n + 1) = 2 * Q * n + 2 * Q := by ring
      have e2 : 2 * Q * 2 ^ 52 = 2 ^ 53 * Q := by ring
      omega
    have hcnQ : cn < Q := by omega
    have hQ2 : 2 ≤ Q := by omega
    have hK1 : K ≠ 0 := by
      rintro rfl
      simp [hQdef] at hQ2
    obtain ⟨Q2, hQ2'⟩ : ∃ Q2, Q = 2 * Q2 := by
      refine ⟨2 ^ (K - 1), ?_⟩
      rw [hQdef, ← pow_succ']
      congr 1
      omega
    have hd := Nat.div_add_mod (2 * n) cn
    have hm := Nat.mod_lt (2 * n) hcn
    set s := 2 * n / cn with hs
    have he1 : (s + 1) * cn = cn * s + cn := by ring
    have hs_lo : cn * s ≤ 2 * n := by omega
    have hs_hi : 2 * n + 1 ≤ (s + 1) * cn := by omega
    have hgU : M * 2 < (s + 1) * Q := by
      have hu1 : Q * (2 * n + 1) ≤ Q * ((s + 1) * cn) := Nat.mul_le_mul_left Q hs_hi
      have hmul : M * 2 * cn < (s + 1) * Q * cn := by
        have e1 : M * 2 * cn = 2 * M * cn := by ring
        have e2 : (s + 1) * Q * cn = Q * ((s + 1) * cn) := by ring
        have e3 : Q * (2 * n + 1) = 2 * (Q * n) + Q := by ring
        have e4 : 2 * Q * n = 2 * (Q * n) := by ring
        omega
      exact lt_of_mul_lt_mul_right hmul (Nat.zero_le _)
    have hgL : s * Q ≤ M * 2 := by
      have hL1 : Q * (cn * s) ≤ Q * (2 * n) := Nat.mul_le_mul_left Q hs_lo
      have hL2 : s * Q ≤ 2 * M + 1 := by
        refine Nat.le_of_mul_le_mul_right ?_ hcn
        have e5 : s * Q * cn = Q * (cn * s) := by ring
        have e6 : Q * (2 * n) = 2 * (Q * n) := by ring
        have e7 : (2 * M + 1) * cn = 2 * M * cn + cn := by ring
        have e4 : 2 * Q * n = 2 * (Q * n) := by ring
        omega
      have e8 : s * Q = 2 * (s * Q2) := by rw [hQ2']; ring
      omega
    exact Nat.div_eq_of_lt_le hgL hgU
  · have hbig : 2 ^ 53 ≤ cn := by omega
    have hcm1 : 2 ^ 53 - 1 ≤ cm := by omega
    have ht0 : 2 * n / cn = 0 := Nat.div_eq_of_lt (by omega)
    rw [ht0]
    refine Nat.div_eq_of_lt ?_
    by_contra hb
    push_neg at hb
    have b1 : Q * cm ≤ 2 * M * cm :=
      Nat.mul_le_mul_right cm (show Q ≤ 2 * M by omega)
    have b2 : 2 ^ 53 * cm ≤ 2 * M * cm :=
      Nat.mul_le_mul_right cm (show 2 ^ 53 ≤ 2 * M by omega)
    have b3 : Q * (2 ^ 53 - 1) ≤ Q * cm := Nat.mul_le_mul_left Q hcm1
    have b4 : 2 * Q * n + 2 * Q ≤ 2 ^ 53 * Q := by
      have h := Nat.mul_le_mul_left (2 * Q) (show n + 1 ≤ 2 ^ 52 by omega)
      have e1 : 2 * Q * (n + 1) = 2 * Q * n + 2 * Q := by ring
      have e2 : 2 * Q * 2 ^ 52 = 2 ^ 53 * Q := by ring
      omega
    have e3 : Q * (2 ^ 53 - 1) + Q = Q * 2 ^ 53 := by
      have h1 : (2 : Nat) ^ 53 - 1 + 1 = 2 ^ 53 := by omega
      calc Q * (2 ^ 53 - 1) + Q = Q * (2 ^ 53 - 1 + 1) := by ring
        _ = Q * 2 ^ 53 := by rw [h1]
    have e4 : Q * 2 ^ 53 = 2 ^ 53 * Q := by ring
    omega

/-- Dividing a 53-bit significand by two is exact. -/
theorem divFMag_half (M : Nat) (hlo : 2 ^ 52 ≤ M) (hhi : M < 2 ^ 53) :
    divFMag M 2 = (M, -1) := by
  have hb2 : bitLenAux 256 2 = 2 := rfl
  have hq0 : M * 2 ^ (54 + 2) / 2 = M * 2 ^ 55 := by omega
  have hr0 : M * 2 ^ (54 + 2) % 2 = 0 := by omega
  have hbl : bitLenAux 256 (M * 2 ^ 55) = 108 := by
    refine bitLenAux_eq 256 _ 108 (by positivity) ?_ (by omega) ?_ ?_
    · calc M * 2 ^ 55 < 2 ^ 53 * 2 ^ 55 := by
            have := Nat.mul_le_mul_right (2 ^ 55) (show M + 1 ≤ 2 ^ 53 by omega)
            omega
        _ = 2 ^ 108 := by norm_num [← pow_add]
        _ < 2 ^ 256 := by norm_num
    · calc (2:Nat) ^ 107 = 2 ^ 52 * 2 ^ 55 := by norm_num [← pow_add]
        _ ≤ M * 2 ^ 55 := Nat.mul_le_mul_right _ hlo
    · calc M * 2 ^ 55 < 2 ^ 53 * 2 ^ 55 := by
            have := Nat.mul_le_mul_right (2 ^ 55) (show M + 1 ≤ 2 ^ 53 by omega)
            omega
        _ = 2 ^ 108 := by norm_num [← pow_add]
  simp only [divFMag, if_neg (show ¬ (M = 0 ∨ (2:Nat) = 0) by omega), hb2, hq0, hr0, hbl]
  norm_num [Nat.mul_mod_left, Nat.mul_div_cancel]

/-- Halving the top significand `2^53` renormalizes to `2^52`. -/
theorem divFMag_half_top : divFMag (2 ^ 53) 2 = (2 ^ 52, 0) := by decide

/-- Doubling a significand of at most `2^53` is exact under `rnd53`. -/
theorem rnd53_double (M : Nat) (hhi : M ≤ 2 ^ 53) : rnd53 (M * 2) = M * 2 := by
  rcases Nat.lt_or_ge (M * 2) (2 ^ 53) with h | h
  · exact rnd53_id _ h
  · rcases Nat.lt_or_ge M (2 ^ 53) with hM | hM
    · have hbl : bitLen (M * 2) = 54 := by
        refine bitLenAux_eq 128 _ 54 (by omega) (by omega) (by omega) (by omega) (by omega)
      simp only [rnd53, if_neg (show ¬ M * 2 < 2 ^ 53 by omega), hbl]
      norm_num
    · have hMeq : M = 2 ^ 53 := by omega
      subst hMeq
      decide

/-- Truncation of a nonnegative double with nonpositive exponent is a
`Nat` division by the corresponding power of two. -/
theorem truncF_nonpos (m : Nat) (E : Int) (hE : E ≤ 0) :
    truncF ⟨false, m, E⟩ = ((m / 2 ^ (-E).toNat : Nat) : Int) := by
  rcases eq_or_lt_of_le hE with hE0 | hEneg
  · subst hE0
    simp [truncF]
  · simp only [truncF, if_neg (show ¬ (0:Int) ≤ E by omega)]
    simp

/-- `rnd53` fixes zero. -/
theorem rnd53_zero : rnd53 0 = 0 := rnd53_id 0 (by norm_num)

/-- `divFMag` with a zero dividend is zero. -/
theorem divFMag_zero (m : Nat) : divFMag 0 m = (0, 0) := by
  simp [divFMag]

/-- On nonnegative operands with a product below `2^52` and a divisor
below `2^63`, the float64 expression `int(float64(a) * float64(b) /
float64(c) / 2.0)` equals the exact truncated rational. -/
theorem aspectDiv2_exact (a b c : Int) (ha : 0 ≤ a) (hb : 0 ≤ b) (hc : 0 < c)
    (hab : a * b < 2 ^ 52) (hcb : c < 2 ^ 63) :
    aspectDiv2 a b c = a * b / (c * 2) := by
  have hda : decide (a < 0) = false := decide_eq_false (not_lt.mpr ha)
  have hdb : decide (b < 0) = false := decide_eq_false (not_lt.mpr hb)
  have hdc : decide (c < 0) = false := decide_eq_false (not_lt.mpr hc.le)
  have hd2 : decide ((2:Int) < 0) = false := rfl
  have hprod : ((a.natAbs * b.natAbs : Nat) : Int) = a * b := by
    rw [← Int.natAbs_mul]
    exact Int.natAbs_of_nonneg (mul_nonneg ha hb)
  have hcnat : ((c.natAbs : Nat) : Int) = c := Int.natAbs_of_nonneg hc.le
  have habn : a.natAbs * b.natAbs < 2 ^ 52 := by
    have h1 : ((a.natAbs * b.natAbs : Nat) : Int) < ((2 ^ 52 : Nat) : Int) := by
      rw [hprod]
      exact_mod_cast hab
    exact_mod_cast h1
  have hcn1 : 0 < c.natAbs := Int.natAbs_pos.mpr (ne_of_gt hc)
  have hcnb : c.natAbs < 2 ^ 63 := by
    have h1 : ((c.natAbs : Nat) : Int) < ((2 ^ 63 : Nat) : Int) := by
      rw [hcnat]
      exact_mod_cast hcb
    exact_mod_cast h1
  by_cases hz : a.natAbs * b.natAbs = 0
  · have hab0 : a * b = 0 := by
      rw [← hprod, hz]
      rfl
    rcases Nat.mul_eq_zero.mp hz with hna | hnb
    · simp [aspectDiv2, floatOfInt, mulF, divF, truncF, divFMag_zero, rnd53_zero,
        hda, hdb, hdc, hd2, hna, hab0]
    · simp [aspectDiv2, floatOfInt, mulF, divF, truncF, divFMag_zero, rnd53_zero,
        hda, hdb, hdc, hd2, hnb, hab0]
  · have hn1 : 0 < a.natAbs * b.natAbs := by omega
    have hapos : 0 < a.natAbs := Nat.pos_of_ne_zero (fun h => hz (by rw [h, zero_mul]))
    have hbpos : 0 < b.natAbs := Nat.pos_of_ne_zero (fun h => hz (by rw [h, mul_zero]))
    have hna53 : rnd53 a.natAbs = a.natAbs := by
      refine rnd53_id _ ?_
      have h1 : a.natAbs ≤ a.natAbs * b.natAbs := Nat.le_mul_of_pos_right _ hbpos
      omega
    have hnb53 : rnd53 b.natAbs = b.natAbs := by
      refine rnd53_id _ ?_
      have h1 : b.natAbs ≤ a.natAbs * b.natAbs := Nat.le_mul_of_pos_left _ hapos
      omega
    have hrn : rnd53 (a.natAbs * b.natAbs) = a.natAbs * b.natAbs := rnd53_id _ (by omega)
    obtain ⟨hcml, hcmh⟩ := rnd53_err c.natAbs (Nat.lt_trans hcnb (by norm_num))
    have hcmpos : 0 < rnd53 c.natAbs :=
      rnd53_pos _ hcn1 (Nat.lt_trans hcnb (by norm_num))
    have hcmlt : rnd53 c.natAbs < 2 ^ 64 := by omega
    obtain ⟨K, hE, hMlo, hMhi, hs1, hs2⟩ :=
      divFMag_spec (a.natAbs * b.natAbs) (rnd53 c.natAbs) hn1 (by omega) hcmpos hcmlt
    have hr2 : rnd53 (2 : Nat) = 2 := rnd53_id 2 (by norm_num)
    have hval : aspectDiv2 a b c =
        (((divFMag (a.natAbs * b.natAbs) (rnd53 c.natAbs)).1 / 2 ^ (K + 1) : Nat) : Int) := by
      simp only [aspectDiv2, floatOfInt, mulF, divF, hda, hdb, hdc, hd2, Bool.xor_false,
        hna53, hnb53, hrn, (show ((2:Int).natAbs) = 2 from rfl), hr2, add_zero, zero_add,
        sub_zero, zero_sub, hE]
      rcases Nat.lt_or_ge (divFMag (a.natAbs * b.natAbs) (rnd53 c.natAbs)).1 (2 ^ 53)
        with hlt | hge
      · simp only [divFMag_half _ hMlo hlt]
        rw [truncF_nonpos _ _ (by omega)]
        have h1 : (-(-(K:Int) + -1)).toNat = K + 1 := by omega
        rw [h1]
      · have htop : (divFMag (a.natAbs * b.natAbs) (rnd53 c.natAbs)).1 = 2 ^ 53 := by omega
        simp only [htop, divFMag_half_top]
        rw [truncF_nonpos _ _ (by omega)]
        have h1 : (-(-(K:Int) + 0)).toNat = K := by omega
        rw [h1]
        congr 1
        rw [show (2:Nat) ^ (K + 1) = 2 * 2 ^ K from pow_succ' 2 K,
          ← Nat.div_div_eq_div_mul]
        norm_num
    rw [hval, float_div_floor (a.natAbs * b.natAbs) c.natAbs (rnd53 c.natAbs) _ K
      hn1 habn hcn1 hcnb hcml hcmh hMlo hMhi hs1 hs2]
    rw [Nat.mul_comm 2 c.natAbs, Int.natCast_div, hprod]
    congr 1
    rw [show ((c.natAbs * 2 : Nat) : Int) = (c.natAbs : Int) * 2 by push_cast; ring, hcnat]

/-- On nonnegative operands with a product below `2^52` and a divisor
below `2^63`, the float64 expression `int(float64(a) * float64(b) /
float64(c) * 2.0)` equals the exact truncated rational. -/
theorem aspectMul2_exact (a b c : Int) (ha : 0 ≤ a) (hb : 0 ≤ b) (hc : 0 < c)
    (hab : a * b < 2 ^ 52) (hcb : c < 2 ^ 63) :
    aspectMul2 a b c = a * b * 2 / c := by
  have hda : decide (a < 0) = false := decide_eq_false (not_lt.mpr ha)
  have hdb : decide (b < 0) = false := decide_eq_false (not_lt.mpr hb)
  have hdc : decide (c < 0) = false := decide_eq_false (not_lt.mpr hc.le)
  have hd2 : decide ((2:Int) < 0) = false := rfl
  have hprod : ((a.natAbs * b.natAbs : Nat) : Int) = a * b := by
    rw [← Int.natAbs_mul]
    exact Int.natAbs_of_nonneg (mul_nonneg ha hb)
  have hcnat : ((c.natAbs : Nat) : Int) = c := Int.natAbs_of_nonneg hc.le
  have habn : a.natAbs * b.natAbs < 2 ^ 52 := by
    have h1 : ((a.natAbs * b.natAbs : Nat) : Int) < ((2 ^ 52 : Nat) : Int) := by
      rw [hprod]
      exact_mod_cast hab
    exact_mod_cast h1
  have hcn1 : 0 < c.natAbs := Int.natAbs_pos.mpr (ne_of_gt hc)
  have hcnb : c.natAbs < 2 ^ 63 := by
    have h1 : ((c.natAbs : Nat) : Int) < ((2 ^ 63 : Nat) : Int) := by
      rw [hcnat]
      exact_mod_cast hcb
    exact_mod_cast h1
  by_cases hz : a.natAbs * b.natAbs = 0
  · have hab0 : a * b = 0 := by
      rw [← hprod, hz]
      rfl
    rcases Nat.mul_eq_zero.mp hz with hna | hnb
    · simp [aspectMul2, floatOfInt, mulF, divF, truncF, divFMag_zero, rnd53_zero,
        hda, hdb, hdc, hd2, hna, hab0]
    · simp [aspectMul2, floatOfInt, mulF, divF, truncF, divFMag_zero, rnd53_zero,
        hda, hdb, hdc, hd2, hnb, hab0]
  · have hn1 : 0 < a.natAbs * b.natAbs := by omega
    have hapos : 0 < a.natAbs := Nat.pos_of_ne_zero (fun h => hz (by rw [h, zero_mul]))
    have hbpos : 0 < b.natAbs := Nat.pos_of_ne_zero (fun h => hz (by rw [h, mul_zero]))
    have hna53 : rnd53 a.natAbs = a.natAbs := by
      refine rnd53_id _ ?_
      have h1 : a.natAbs ≤ a.natAbs * b.natAbs := Nat.le_mul_of_pos_right _ hbpos
      omega
    have hnb53 : rnd53 b.natAbs = b.natAbs := by
      refine rnd53_id _ ?_
      have h1 : b.natAbs ≤ a.natAbs * b.natAbs := Nat.le_mul_of_pos_left _ hapos
      omega
    have hrn : rnd53 (a.natAbs * b.natAbs) = a.natAbs * b.natAbs := rnd53_id _ (by omega)
    obtain ⟨hcml, hcmh⟩ := rnd53_err c.natAbs (Nat.lt_trans hcnb (by norm_num))
    have hcmpos : 0 < rnd53 c.natAbs :=
      rnd53_pos _ hcn1 (Nat.lt_trans hcnb (by norm_num))
    have hcmlt : rnd53 c.natAbs < 2 ^ 64 := by omega
    obtain ⟨K, hE, hMlo, hMhi, hs1, hs2⟩ :=
      divFMag_spec (a.natAbs * b.natAbs) (rnd53 c.natAbs) hn1 (by omega) hcmpos hcmlt
    have hr2 : rnd53 (2 : Nat) = 2 := rnd53_id 2 (by norm_num)
    have hval : aspectMul2 a b c =
        (((divFMag (a.natAbs * b.natAbs) (rnd53 c.natAbs)).1 * 2 / 2 ^ K : Nat) : Int) := by
      simp only [aspectMul2, floatOfInt, mulF, divF, hda, hdb, hdc, hd2, Bool.xor_false,
        hna53, hnb53, hrn, (show ((2:Int).natAbs) = 2 from rfl), hr2, add_zero, zero_add,
        sub_zero, zero_sub, hE,
        rnd53_double (divFMag (a.natAbs * b.natAbs) (rnd53 c.natAbs)).1 hMhi]
      rw [truncF_nonpos _ _ (by omega)]
      have h1 : (-(-(K:Int))).toNat = K := by omega
      rw [h1]
    rw [hval, float_mul_floor (a.natAbs * b.natAbs) c.natAbs (rnd53 c.natAbs) _ K
      hn1 habn hcn1 hcnb hcml hcmh hMlo hMhi hs1 hs2]
    rw [Nat.mul_comm 2 (a.natAbs * b.natAbs), Int.natCast_div]
    congr 1
    rw [show ((a.natAbs * b.natAbs * 2 : Nat) : Int) =
      ((a.natAbs * b.natAbs : Nat) : Int) * 2 by push_cast; ring, hprod]

/-! ## Output dimension resolution (braille.go, CalculateDimensions) -/

/-- Model of Go `CalculateDimensions` (braille.go): four ordered branches,
each aspect expression computed in the bit-exact float64 model and
truncated by `int(...)`. -/
def calculateDimensions (imgWidth imgHeight width height maxWidth maxHeight : Int) :
    Int × Int :=
  if width > 0 ∧ height > 0 then (width, height)
  else if width > 0 ∧ height = 0 then
    let h := aspectDiv2 width imgHeight imgWidth
    (width, if h = 0 then 1 else h)
  else if height > 0 ∧ width = 0 then
    let w := aspectMul2 height imgWidth imgHeight
    (if w = 0 then 1 else w, height)
  else if maxWidth > 0 ∧ maxHeight > 0 then
    let heightForWidth := aspectDiv2 maxWidth imgHeight imgWidth
    let widthForHeight := aspectMul2 maxHeight imgWidth imgHeight
    if heightForWidth ≤ maxHeight then (maxWidth, heightForWidth)
    else (widthForHeight, maxHeight)
  else (0, 0)

/-- Transcription of the ordered dimension policy as the specification
states it, with each truncated real expression written as a single
integer floor division. -/
def resolveDims (imgW imgH reqW reqH maxW maxH : Int) : Int × Int :=
  if 0 < reqW ∧ 0 < reqH then (reqW, reqH)
  else if 0 < reqW then
    let h := (reqW * imgH) / (imgW * 2)
    (reqW, if h = 0 then 1 else h)
  else if 0 < reqH then
    let w := (reqH * imgW * 2) / imgH
    (if w = 0 then 1 else w, reqH)
  else if 0 < maxW ∧ 0 < maxH then
    let hForW := (maxW * imgH) / (imgW * 2)
    if hForW ≤ maxH then (maxW, hForW)
    else ((maxH * imgW * 2) / imgH, maxH)
  else (0, 0)

/-- C3 amended: on the int64-realistic domain where every requested or
maximal size times the relevant image dimension stays below `2^52`, the
float64 arithmetic of `CalculateDimensions` computes exactly the
truncated-rational policy of the specification, and the six concrete
examples hold; outside that domain the float64 rounding can change the
result. -/
theorem calculateDimensions_policy_amended :
    (∀ imgW imgH reqW reqH maxW maxH : Int, 0 < imgW → 0 < imgH →
      0 ≤ reqW → 0 ≤ reqH → 0 ≤ maxW → 0 ≤ maxH →
      imgW < 2 ^ 63 → imgH < 2 ^ 63 →
      reqW * imgH < 2 ^ 52 → reqH * imgW < 2 ^ 52 →
      maxW * imgH < 2 ^ 52 → maxH * imgW < 2 ^ 52 →
      calculateDimensions imgW imgH reqW reqH maxW maxH =
        resolveDims imgW imgH reqW reqH maxW maxH)
    ∧ calculateDimensions 100 100 50 25 80 24 = (50, 25)
    ∧ calculateDimensions 100 100 0 0 0 0 = (0, 0)
    ∧ calculateDimensions 100 100 0 0 80 24 = (48, 24)
    ∧ calculateDimensions 200 50 0 0 80 24 = (80, 10)
    ∧ calculateDimensions 50 200 0 0 80 24 = (12, 24)
    ∧ calculateDimensions 10 2 10 0 0 0 = (10, 1) := by
  refine ⟨?_, by decide, by decide, by decide, by decide, by decide, by decide⟩
  intro imgW imgH reqW reqH maxW maxH hiw hih hrw hrh hmw hmh hiwb hihb h1 h2 h3 h4
  simp only [calculateDimensions, resolveDims, gt_iff_lt]
  rw [aspectDiv2_exact reqW imgH imgW hrw hih.le hiw h1 hiwb,
    aspectMul2_exact reqH imgW imgH hrh hiw.le hih h2 hihb,
    aspectDiv2_exact maxW imgH imgW hmw hih.le hiw h3 hiwb,
    aspectMul2_exact maxH imgW imgH hmh hiw.le hih h4 hihb]
  split_ifs <;> first | rfl | omega

/-- Witness for the amended C3 at the concrete input (100,100,50,25,80,24). -/
theorem calculateDimensions_policy_amended_witness :
    calculateDimensions 100 100 50 25 80 24 = resolveDims 100 100 50 25 80 24 :=
  calculateDimensions_policy_amended.1 100 100 50 25 80 24 (by decide) (by decide)
    (by decide) (by decide) (by decide) (by decide) (by decide) (by decide)
    (by decide) (by decide) (by decide) (by decide)

/-- C3 fails as stated beyond the float64-exact range: requesting width
`2^53+3` on a 1-by-1 image makes Go convert the width to the double
`2^53+4`, so the computed height is `2^52+2`, while the specification's
truncated rational policy gives `2^52+1`. -/
theorem calculateDimensions_float_counterexample :
    calculateDimensions 1 1 (2 ^ 53 + 3) 0 0 0 = (2 ^ 53 + 3, 2 ^ 52 + 2)
    ∧ resolveDims 1 1 (2 ^ 53 + 3) 0 0 0 = (2 ^ 53 + 3, 2 ^ 52 + 1) :=
  ⟨by decide, by decide⟩

/-- C7 fails as stated: with the positive inputs imgW=100, imgH=1, maxW=10,
maxH=24 the max-constrained branch returns height 0 (it has no 0-to-1
clamp), so the resolved dimensions are not both at least 1. -/
theorem calculateDimensions_degenerate_counterexample :
    calculateDimensions 100 1 0 0 10 24 = (10, 0)
    ∧ ¬ 1 ≤ (calculateDimensions 100 1 0 0 10 24).2 :=
  ⟨by decide, by decide⟩

/-- C7 amended: with both max constraints positive, the resolved
dimensions are each at least 1 provided the aspect ratio is not extreme
(`imgW*2 ≤ maxW*imgH` and `imgH ≤ maxH*imgW*2`) and the cross products
stay in the float64-exact range below `2^52`; without the aspect
conditions the derived component of the max-constrained branch can be 0. -/
theorem calculateDimensions_min_one_amended :
    ∀ imgW imgH maxW maxH : Int, 0 < imgW → 0 < imgH → 0 < maxW → 0 < maxH →
      imgW < 2 ^ 63 → imgH < 2 ^ 63 →
      maxW * imgH < 2 ^ 52 → maxH * imgW < 2 ^ 52 →
      imgW * 2 ≤ maxW * imgH → imgH ≤ maxH * imgW * 2 →
      1 ≤ (calculateDimensions imgW imgH 0 0 maxW maxH).1
      ∧ 1 ≤ (calculateDimensions imgW imgH 0 0 maxW maxH).2 := by
  intro imgW imgH maxW maxH hiw hih hmw hmh hiwb hihb hb1 hb2 ha hb
  have hres : calculateDimensions imgW imgH 0 0 maxW maxH =
      if maxW * imgH / (imgW * 2) ≤ maxH then (maxW, maxW * imgH / (imgW * 2))
      else (maxH * imgW * 2 / imgH, maxH) := by
    simp only [calculateDimensions, gt_iff_lt]
    rw [if_neg (by omega), if_neg (by omega), if_neg (by omega), if_pos ⟨hmw, hmh⟩,
      aspectDiv2_exact maxW imgH imgW hmw.le hih.le hiw hb1 hiwb,
      aspectMul2_exact maxH imgW imgH hmh.le hiw.le hih hb2 hihb]
  have hfw : 1 ≤ maxW * imgH / (imgW * 2) := by
    rw [Int.le_ediv_iff_mul_le (by omega), one_mul]
    exact ha
  have hfh : 1 ≤ maxH * imgW * 2 / imgH := by
    rw [Int.le_ediv_iff_mul_le hih, one_mul]
    exact hb
  rw [hres]
  by_cases hc : maxW * imgH / (imgW * 2) ≤ maxH
  · rw [if_pos hc]
    exact ⟨by omega, hfw⟩
  · rw [if_neg hc]
    exact ⟨hfh, by omega⟩

/-- Witness for the amended C7 at the concrete input (100,100,80,24). -/
theorem calculateDimensions_min_one_amended_witness :
    1 ≤ (calculateDimensions 100 100 0 0 80 24).1
    ∧ 1 ≤ (calculateDimensions 100 100 0 0 80 24).2 :=
  calculateDimensions_min_one_amended 100 100 80 24 (by decide) (by decide)
    (by decide) (by decide) (by decide) (by decide) (by decide) (by decide)
    (by decide) (by decide)

/-! ## Exact model of the float64 luminance formula

The Go code computes `uint8(0.299*float64(r) + 0.587*float64(g) +
0.114*float64(b))` in IEEE-754 double precision.  All values arising in
that computation are positive dyadic rationals with denominator dividing
`2^56`, so each is represented below by its numerator at scale `2^56`;
multiplying a coefficient by an integer channel and adding numerators is
then exact, and the double rounding after each operation is exactly
round-to-nearest-even to 53 significant bits of the numerator (`rnd53`).
The final `uint8` conversion truncates, which on nonnegative values is
division by `2^56`.  This integer model reproduces the Go float64 result
bit-for-bit on the whole uint8 input cube (including the 3464 inputs where
the float result differs from exact rational arithmetic, e.g. (1,1,1)
gives 0 and (128,128,128) gives 127). -/

/-- Numerator of the double nearest 0.299 at scale `2^56`. -/
def c299n : Nat := 21545220617340452

/-- Numerator of the double nearest 0.587 at scale `2^56`. -/
def c587n : Nat := 42297807700263696

/-- Numerator of the double nearest 0.114 at scale `2^56`. -/
def c114n : Nat := 8214565720323785

/-- Model of the Go luminance computation
`uint8(0.299*float64(r) + 0.587*float64(g) + 0.114*float64(b))`:
left-associated additions, a double rounding after every product and sum,
truncation at the end. -/
def luminance (r g b : Nat) : Nat :=
  rnd53 (rnd53 (rnd53 (c299n * r) + rnd53 (c587n * g)) + rnd53 (c114n * b)) / 2 ^ 56

/-! ## Braille glyphs (braille.go, blockToBraille / extractBlock) -/

/-- A pixel of the Go `image.RGBA` grid, one `Nat` per 8-bit channel.  The
Go `c.RGBA()` call returns the 16-bit expansions `v*0x101` and the code
recovers the 8-bit values with `>> 8`, an exact round trip, so blocks are
modelled by their 8-bit channels directly. -/
structure RGBA where
  r : Nat
  g : Nat
  b : Nat
  a : Nat
deriving DecidableEq

/-- Luminance of a pixel (alpha ignored, as in the Go code). -/
def lum8 (c : RGBA) : Nat := luminance c.r c.g c.b

/-- One iteration of the Go `blockToBraille` loop: set bit `i` of the
pattern when the sample's luminance exceeds the threshold. -/
def brailleBit (block : Nat → RGBA) (threshold : Nat) (i : Nat) (pat : Nat) : Nat :=
  if lum8 (block i) > threshold then pat ||| (1 <<< i) else pat

/-- Model of Go `blockToBraille`: the fixed eight-iteration loop over the
block (indices 0..7), then `0x2800 + pattern`. -/
def blockToBraille (block : Nat → RGBA) (threshold : Nat) : Nat :=
  0x2800 + brailleBit block threshold 7 (brailleBit block threshold 6
    (brailleBit block threshold 5 (brailleBit block threshold 4
      (brailleBit block threshold 3 (brailleBit block threshold 2
        (brailleBit block threshold 1 (brailleBit block threshold 0 0)))))))

/-- The dot pattern as the specification describes it: the sum of `2^i`
over the samples whose luminance strictly exceeds the threshold. -/
def brailleSpecPattern (block : Nat → RGBA) (threshold : Nat) : Nat :=
  ∑ i ∈ Finset.range 8, if threshold < lum8 (block i) then 2 ^ i else 0

/-- An all-channels-255 (white) pixel. -/
def whitePix : RGBA := ⟨255, 255, 255, 255⟩

/-- An all-channels-0 (black, opaque) pixel. -/
def blackPix : RGBA := ⟨0, 0, 0, 255⟩

/-- C4: `blockToBraille` returns `0x2800 + pattern` where bit `i` of the
pattern is set exactly when sample `i`'s luminance strictly exceeds the
threshold; for any threshold below 255 an all-bright block yields 0x28FF,
an all-dark block 0x2800, only sample 0 bright 0x2801 and only sample 7
bright 0x2880. -/
theorem blockToBraille_claim :
    (∀ (block : Nat → RGBA) (t : Nat),
      blockToBraille block t = 0x2800 + brailleSpecPattern block t
      ∧ Nat.testBit (brailleSpecPattern block t) 0 = decide (t < lum8 (block 0))
      ∧ Nat.testBit (brailleSpecPattern block t) 1 = decide (t < lum8 (block 1))
      ∧ Nat.testBit (brailleSpecPattern block t) 2 = decide (t < lum8 (block 2))
      ∧ Nat.testBit (brailleSpecPattern block t) 3 = decide (t < lum8 (block 3))
      ∧ Nat.testBit (brailleSpecPattern block t) 4 = decide (t < lum8 (block 4))
      ∧ Nat.testBit (brailleSpecPattern block t) 5 = decide (t < lum8 (block 5))
      ∧ Nat.testBit (brailleSpecPattern block t) 6 = decide (t < lum8 (block 6))
      ∧ Nat.testBit (brailleSpecPattern block t) 7 = decide (t < lum8 (block 7)))
    ∧ (∀ t : Nat, t < 255 →
      blockToBraille (fun _ => whitePix) t = 0x28FF
      ∧ blockToBraille (fun _ => blackPix) t = 0x2800
      ∧ blockToBraille (fun i => if i = 0 then whitePix else blackPix) t = 0x2801
      ∧ blockToBraille (fun i => if i = 7 then whitePix else blackPix) t = 0x2880) := by
  have hw : lum8 whitePix = 255 := by decide
  have hb : lum8 blackPix = 0 := by decide
  constructor
  · intro block t
    by_cases h0 : t < lum8 (block 0) <;>
    by_cases h1 : t < lum8 (block 1) <;>
    by_cases h2 : t < lum8 (block 2) <;>
    by_cases h3 : t < lum8 (block 3) <;>
    by_cases h4 : t < lum8 (block 4) <;>
    by_cases h5 : t < lum8 (block 5) <;>
    by_cases h6 : t < lum8 (block 6) <;>
    by_cases h7 : t < lum8 (block 7) <;>
      simp [blockToBraille, brailleBit, brailleSpecPattern, Finset.sum_range_succ,
        h0, h1, h2, h3, h4, h5, h6, h7] <;> decide
  · intro t ht
    refine ⟨?_, ?_, ?_, ?_⟩ <;> simp [blockToBraille, brailleBit, hw, hb, ht]

/-- Witness for C4 at threshold 128. -/
theorem blockToBraille_claim_witness :
    blockToBraille (fun _ => whitePix) 128 = 0x28FF
    ∧ blockToBraille (fun _ => blackPix) 128 = 0x2800 :=
  ⟨(blockToBraille_claim.2 128 (by decide)).1, (blockToBraille_claim.2 128 (by decide)).2.1⟩

/-! ## Floyd–Steinberg dithering (applyDithering) -/

/-- Model of a Go `image.RGBA` pixel grid with bounds `[0,w) × [0,h)`
(the library normalizes `Min = (0,0)` for the grids this code builds).
The pixel function is total; only in-bounds values are meaningful. -/
structure Grid where
  w : Nat
  h : Nat
  pix : Int → Int → RGBA

/-- Model of `img.SetRGBA`: point update of the pixel function. -/
def setPix (g : Grid) (x y : Int) (c : RGBA) : Grid :=
  ⟨g.w, g.h, fun u v => if u = x ∧ v = y then c else g.pix u v⟩

/-- Model of the clamping in `distributeError`: two sequential range
checks. -/
def clamp255 (v : Int) : Int := if v < 0 then 0 else if v > 255 then 255 else v

/-- Go `int(float64(err) * (k/16.0))`: the double arithmetic is exact
(`k/16` is dyadic, `|err*k| < 2^11·16`), so the conversion is truncation
toward zero of the rational `err*k/16`, which is exactly `Int.tdiv`. -/
def errPortion (err : Int) (k : Nat) : Int := Int.tdiv (err * k) 16

/-- Model of the Go closure `distributeError`: bounds-checked update of a
neighbor, adding the error portion to its R channel and writing the
clamped result to all three channels with alpha 255. -/
def distributeError (g : Grid) (nx ny : Int) (err : Int) (k : Nat) : Grid :=
  if 0 ≤ nx ∧ nx < (g.w : Int) ∧ 0 ≤ ny ∧ ny < (g.h : Int) then
    let newValue := clamp255 ((g.pix nx ny).r + errPortion err k)
    setPix g nx ny ⟨newValue.toNat, newValue.toNat, newValue.toNat, 255⟩
  else g

/-- One iteration of the Go `applyDithering` pixel loop: binary-quantize
the pixel by luminance, then diffuse the error to the four
Floyd–Steinberg neighbors in source order. -/
def ditherStep (threshold : Nat) (g : Grid) (p : Nat × Nat) : Grid :=
  let x : Int := p.1
  let y : Int := p.2
  let lum := lum8 (g.pix x y)
  let newPixel : Nat := if lum > threshold then 255 else 0
  let err : Int := (lum : Int) - (newPixel : Int)
  let g1 := setPix g x y ⟨newPixel, newPixel, newPixel, 255⟩
  let g2 := distributeError g1 (x + 1) y err 7
  let g3 := distributeError g2 (x - 1) (y + 1) err 3
  let g4 := distributeError g3 x (y + 1) err 5
  distributeError g4 (x + 1) (y + 1) err 1

/-- The row-major (y outer, x inner) coordinate order of the Go loops. -/
def rasterOrder (w h : Nat) : List (Nat × Nat) :=
  (List.range h).flatMap (fun y => (List.range w).map fun x => (x, y))

/-- Model of the copy loop at the top of `applyDithering`: the result
image starts as a zero-initialized `image.NewRGBA` whose in-bounds pixels
are copied from the input. -/
def copyGrid (g : Grid) : Grid :=
  ⟨g.w, g.h, fun x y =>
    if 0 ≤ x ∧ x < (g.w : Int) ∧ 0 ≤ y ∧ y < (g.h : Int) then g.pix x y else ⟨0, 0, 0, 0⟩⟩

/-- Model of Go `applyDithering`: copy, then the raster-order
Floyd–Steinberg pass. -/
def applyDithering (g : Grid) (threshold : Nat) : Grid :=
  (rasterOrder g.w g.h).foldl (ditherStep threshold) (copyGrid g)

/-- Clamping as the specification words it: restrict to [0,255]. -/
def clampSpec (v : Int) : Int := max 0 (min 255 v)

/-- The Floyd–Steinberg neighbor offsets and weight numerators as the
specification lists them: right 7/16, below-left 3/16, below 5/16,
below-right 1/16. -/
def fsOffsets : List (Int × Int × Nat) := [(1, 0, 7), (-1, 1, 3), (0, 1, 5), (1, 1, 1)]

/-- Error diffusion as the specification words it: fold over the
neighbor-offset list, skipping out-of-bounds neighbors, adding the
truncated weighted error to the neighbor's R channel and writing the
clamped value to all three channels. -/
def diffuseSpec (err : Int) (x y : Int) (g : Grid) : Grid :=
  fsOffsets.foldl
    (fun gg off =>
      if 0 ≤ x + off.1 ∧ x + off.1 < (gg.w : Int)
          ∧ 0 ≤ y + off.2.1 ∧ y + off.2.1 < (gg.h : Int) then
        let v := clampSpec ((gg.pix (x + off.1) (y + off.2.1)).r + errPortion err off.2.2)
        setPix gg (x + off.1) (y + off.2.1) ⟨v.toNat, v.toNat, v.toNat, 255⟩
      else gg) g

/-- One dithering step as the specification words it. -/
def ditherSpecStep (threshold : Nat) (g : Grid) (p : Nat × Nat) : Grid :=
  let l := lum8 (g.pix p.1 p.2)
  let q : Nat := if threshold < l then 255 else 0
  diffuseSpec ((l : Int) - q) p.1 p.2 (setPix g p.1 p.2 ⟨q, q, q, 255⟩)

/-- The whole dithering pass as the specification words it. -/
def ditherSpec (g : Grid) (threshold : Nat) : Grid :=
  (rasterOrder g.w g.h).foldl (ditherSpecStep threshold) (copyGrid g)

/-- The two clamp formulations agree. -/
theorem clamp255_eq_clampSpec (v : Int) : clamp255 v = clampSpec v := by
  simp only [clamp255, clampSpec]
  split_ifs <;> omega

/-- C5: `applyDithering` is exactly the specification's algorithm: raster
order over a fresh copy, luminance binary-quantization at each pixel, and
truncated 7/16, 3/16, 5/16, 1/16 error diffusion to the in-bounds
neighbors' R channels written back to all three channels clamped to
[0,255]. -/
theorem applyDithering_algorithm_claim :
    ∀ (g : Grid) (t : Nat), applyDithering g t = ditherSpec g t := by
  have hstep : ∀ t : Nat, ditherStep t = ditherSpecStep t := by
    intro t
    funext g p
    simp only [ditherStep, ditherSpecStep, diffuseSpec, fsOffsets, List.foldl,
      distributeError, clamp255_eq_clampSpec, gt_iff_lt, add_zero, sub_eq_add_neg]
  intro g t
  rw [applyDithering, ditherSpec, hstep]

/-- Strict raster-order precedence: `p` comes before `q` in row-major
order. -/
def rasterLt (p q : Nat × Nat) : Prop := p.2 < q.2 ∨ (p.2 = q.2 ∧ p.1 < q.1)

/-- Reading a point-updated grid. -/
theorem setPix_pix (g : Grid) (x y : Int) (c : RGBA) (u v : Int) :
    (setPix g x y c).pix u v = if u = x ∧ v = y then c else g.pix u v := rfl

/-- Error distribution to one neighbor does not change any other pixel. -/
theorem distributeError_pix_ne (g : Grid) (nx ny err : Int) (k : Nat) (u v : Int)
    (hne : ¬(u = nx ∧ v = ny)) :
    (distributeError g nx ny err k).pix u v = g.pix u v := by
  unfold distributeError
  split
  · rw [setPix_pix, if_neg hne]
  · rfl

/-- A dithering step at a later raster position leaves an earlier pixel
untouched: it writes only the current position and its four diffusion
targets, all of which are strictly later in raster order. -/
theorem ditherStep_pix_earlier (t : Nat) (g : Grid) (a b x y : Nat)
    (h : rasterLt (x, y) (a, b)) :
    (ditherStep t g (a, b)).pix x y = g.pix x y := by
  have h' : y < b ∨ (y = b ∧ x < a) := h
  simp only [ditherStep]
  rw [distributeError_pix_ne, distributeError_pix_ne, distributeError_pix_ne,
    distributeError_pix_ne, setPix_pix, if_neg] <;> omega

/-- A dithering step writes the current pixel to pure black or pure white
according to the luminance threshold. -/
theorem ditherStep_pix_self (t : Nat) (g : Grid) (x y : Nat) :
    (ditherStep t g (x, y)).pix x y =
      (if t < lum8 (g.pix x y) then whitePix else blackPix) := by
  simp only [ditherStep]
  rw [distributeError_pix_ne, distributeError_pix_ne, distributeError_pix_ne,
    distributeError_pix_ne, setPix_pix, if_pos ⟨rfl, rfl⟩]
  · simp only [gt_iff_lt, whitePix, blackPix]
    split_ifs <;> rfl
  all_goals omega

/-- Folding dithering steps over positions that are all strictly later in
raster order leaves a pixel untouched. -/
theorem foldl_ditherStep_later (t : Nat) (x y : Nat) :
    ∀ (L : List (Nat × Nat)) (g : Grid), (∀ q ∈ L, rasterLt (x, y) q) →
      (L.foldl (ditherStep t) g).pix x y = g.pix x y := by
  intro L
  induction L with
  | nil => intro g _; rfl
  | cons a L ih =>
    intro g hall
    rw [List.foldl_cons]
    rcases a with ⟨u, v⟩
    rw [ih _ fun q hq => hall q (List.mem_cons_of_mem _ hq),
      ditherStep_pix_earlier t g u v x y (hall (u, v) (List.mem_cons_self _ _))]

/-- Every position processed by a raster-ordered fold ends up pure black
or pure white: once a pixel is quantized, later steps never touch it. -/
theorem foldl_ditherStep_mem (t : Nat) :
    ∀ (L : List (Nat × Nat)) (g : Grid), L.Pairwise rasterLt →
      ∀ x y : Nat, (x, y) ∈ L →
      (L.foldl (ditherStep t) g).pix x y = blackPix
      ∨ (L.foldl (ditherStep t) g).pix x y = whitePix := by
  intro L
  induction L with
  | nil => intro g _ x y hx; cases hx
  | cons a L ih =>
    intro g hpw x y hmem
    have hall : ∀ q ∈ L, rasterLt a q := (List.pairwise_cons.mp hpw).1
    rw [List.foldl_cons]
    rcases List.mem_cons.mp hmem with hxa | hxL
    · subst hxa
      rw [foldl_ditherStep_later t x y L _ hall, ditherStep_pix_self]
      split_ifs
      · exact Or.inr rfl
      · exact Or.inl rfl
    · exact ih _ (List.pairwise_cons.mp hpw).2 x y hxL

/-- Membership in the raster order list. -/
theorem mem_rasterOrder (w h x y : Nat) :
    (x, y) ∈ rasterOrder w h ↔ x < w ∧ y < h := by
  simp only [rasterOrder, List.mem_flatMap, List.mem_map, List.mem_range]
  constructor
  · rintro ⟨b, hb, a, ha, heq⟩
    cases heq
    exact ⟨ha, hb⟩
  · rintro ⟨hx, hy⟩
    exact ⟨y, hy, x, hx, rfl⟩

/-- The raster order list is strictly increasing for raster precedence. -/
theorem rasterOrder_pairwise (w h : Nat) : (rasterOrder w h).Pairwise rasterLt := by
  induction h with
  | zero => simp [rasterOrder]
  | succ n ih =>
    have hsplit : rasterOrder w (n + 1) =
        rasterOrder w n ++ (List.range w).map (fun x => (x, n)) := by
      simp [rasterOrder, List.range_succ]
    rw [hsplit, List.pairwise_append]
    refine ⟨ih, ?_, ?_⟩
    · rw [List.pairwise_map]
      exact (List.pairwise_lt_range w).imp fun hab => Or.inr ⟨rfl, hab⟩
    · intro p hp q hq
      rcases p with ⟨px, py⟩
      have hpy : py < n := ((mem_rasterOrder w n px py).mp hp).2
      rcases List.mem_map.mp hq with ⟨a, _, rfl⟩
      exact Or.inl hpy

/-- C10: every in-bounds pixel of the dithered grid is pure black
`(0,0,0,255)` or pure white `(255,255,255,255)`: error diffusion targets
only raster-later pixels, so no pixel changes after its own
binary-quantization. -/
theorem applyDithering_bw_claim :
    ∀ (g : Grid) (t : Nat) (x y : Nat), x < g.w → y < g.h →
      (applyDithering g t).pix x y = blackPix
      ∨ (applyDithering g t).pix x y = whitePix := by
  intro g t x y hx hy
  exact foldl_ditherStep_mem t (rasterOrder g.w g.h) (copyGrid g)
    (rasterOrder_pairwise g.w g.h) x y ((mem_rasterOrder g.w g.h x y).mpr ⟨hx, hy⟩)

/-- Witness for C10 on a concrete 2-by-1 grid. -/
theorem applyDithering_bw_claim_witness :
    (applyDithering ⟨2, 1, fun _ _ => ⟨10, 200, 30, 255⟩⟩ 128).pix 0 0 = blackPix
    ∨ (applyDithering ⟨2, 1, fun _ _ => ⟨10, 200, 30, 255⟩⟩ 128).pix 0 0 = whitePix :=
  applyDithering_bw_claim ⟨2, 1, fun _ _ => ⟨10, 200, 30, 255⟩⟩ 128 0 0
    (by decide) (by decide)

/-! ## Frame composition (braille.go, addFrame / visibleWidth)

Go strings are modelled as `List Char` (Go ranges over runes); Go `len`
on a string counts UTF-8 bytes and is modelled by `byteLen`. -/

/-- Model of Go `len` on a string: total UTF-8 byte size of the runes. -/
def byteLen (l : List Char) : Nat := (l.map Char.utf8Size).sum

/-- Model of Go `visibleWidth`: count runes outside ANSI escapes, where an
escape starts at ESC and ends at the next literal `m`. -/
def visibleWidth (l : List Char) : Nat :=
  (l.foldl
    (fun st r =>
      if r = '\x1b' then (st.1, true)
      else if st.2 then (st.1, if r = 'm' then false else true)
      else (st.1 + 1, st.2))
    (0, false)).1

/-- Model of Go `ansiReset`. -/
def ansiReset : List Char := "\x1b[0m".data

/-- The fixed white foreground escape used for frames in `addFrame`. -/
def whiteColorStr : List Char := "\x1b[38;5;15m".data

/-- Model of Go `repeatString`: left fold of concatenations. -/
def repeatString (s : List Char) (n : Nat) : List Char :=
  (List.range n).foldl (fun acc _ => acc ++ s) []

/-- Model of Go `addFrame`: sizes the border from the first line
(`visibleWidth` when color is on, byte length when color is off), then
builds top border, bordered content lines, and bottom border. -/
def addFrame (lines : List (List Char)) (noColor : Bool) : List (List Char) :=
  match lines with
  | [] => []
  | l0 :: _ =>
    let width := if !noColor then visibleWidth l0 else byteLen l0
    let whiteColor := if !noColor then whiteColorStr else []
    let reset := if !noColor then ansiReset else []
    (whiteColor ++ ['┌'] ++ repeatString ['─'] width ++ ['┐'] ++ reset)
      :: ((lines.map fun line =>
            whiteColor ++ ['│'] ++ reset ++ line ++ whiteColor ++ ['│'] ++ reset)
        ++ [whiteColor ++ ['└'] ++ repeatString ['─'] width ++ ['┘'] ++ reset])

/-- Repeating a one-character string is `List.replicate`. -/
theorem repeatString_single (c : Char) : ∀ n, repeatString [c] n = List.replicate n c := by
  intro n
  induction n with
  | zero => rfl
  | succ n ih =>
    rw [repeatString, List.range_succ, List.foldl_append]
    rw [repeatString] at ih
    rw [ih, List.foldl_cons, List.foldl_nil, List.replicate_succ']

/-- C8 fails as stated: with color disabled and the single braille content
line `"⠀"` (one visible character, three UTF-8 bytes), the horizontal
border run has length 3, the Go byte length, not the visible character
width 1. -/
theorem addFrame_width_counterexample :
    addFrame [['⠀']] true =
      [['┌', '─', '─', '─', '┐'], ['│', '⠀', '│'], ['└', '─', '─', '─', '┘']]
    ∧ visibleWidth ['⠀'] = 1 := by
  constructor
  · rfl
  · rfl

/-- C8 amended: `addFrame` returns `len+2` lines with a one-character
border; the horizontal bar run is sized by the visible (escape-skipping)
width of the first content line when color is enabled, but by its UTF-8
byte length when color is disabled; with color enabled the border glyphs
are wrapped in the fixed white color code and a reset sequence. -/
theorem addFrame_amended :
    ∀ (l0 : List Char) (rest : List (List Char)) (noColor : Bool),
      (addFrame (l0 :: rest) noColor).length = (l0 :: rest).length + 2
      ∧ (noColor = false →
          addFrame (l0 :: rest) false =
            (whiteColorStr ++ ['┌'] ++ List.replicate (visibleWidth l0) '─'
                ++ ['┐'] ++ ansiReset)
              :: (((l0 :: rest).map fun line =>
                    whiteColorStr ++ ['│'] ++ ansiReset ++ line
                      ++ whiteColorStr ++ ['│'] ++ ansiReset)
                ++ [whiteColorStr ++ ['└'] ++ List.replicate (visibleWidth l0) '─'
                    ++ ['┘'] ++ ansiReset]))
      ∧ (noColor = true →
          addFrame (l0 :: rest) true =
            (['┌'] ++ List.replicate (byteLen l0) '─' ++ ['┐'])
              :: (((l0 :: rest).map fun line => ['│'] ++ line ++ ['│'])
                ++ [['└'] ++ List.replicate (byteLen l0) '─' ++ ['┘']])) := by
  intro l0 rest noColor
  refine ⟨?_, fun _ => ?_, fun _ => ?_⟩
  · cases noColor <;> simp [addFrame]
  · simp [addFrame, repeatString_single]
  · simp [addFrame, repeatString_single]

/-- Witness for the amended C8 on the one-line input `["⠀"]` with color
enabled. -/
theorem addFrame_amended_witness :
    addFrame [['⠀']] false =
      (whiteColorStr ++ ['┌'] ++ List.replicate (visibleWidth ['⠀']) '─'
          ++ ['┐'] ++ ansiReset)
        :: (([['⠀']].map fun line =>
              whiteColorStr ++ ['│'] ++ ansiReset ++ line
                ++ whiteColorStr ++ ['│'] ++ ansiReset)
          ++ [whiteColorStr ++ ['└'] ++ List.replicate (visibleWidth ['⠀']) '─'
              ++ ['┘'] ++ ansiReset]) :=
  (addFrame_amended ['⠀'] [] false).2.1 rfl

/-! ## Hex color parsing (color.go, ParseHex)

`ParseHex` works on the string's bytes: the `#` strip, the 3-to-6
expansion and the length check all use Go `len` and indexing, which count
bytes.  The digit parsing is delegated to `fmt.Sscanf(hex,
"%02x%02x%02x", ...)`, whose scanner reads the string as UTF-8 runes
(malformed bytes become U+FFFD).  Each `%02x` field first skips
whitespace runes (counted against the two-rune width; a newline in the
input fails, since the format has none), then greedily reads at most the
remaining width of hex digits, failing only when it reads no digit at
all.  Leftover input after the last field is not an error.  Whitespace is
the `fmt` scanner's space table. -/

/-- Hexadecimal digit test on a rune (both cases), as the scanner's digit
set. -/
def isHexDigit (c : Char) : Bool :=
  (48 ≤ c.toNat && c.toNat ≤ 57) || (97 ≤ c.toNat && c.toNat ≤ 102)
    || (65 ≤ c.toNat && c.toNat ≤ 70)

/-- Value of a hexadecimal digit rune. -/
def hexVal (c : Char) : Nat :=
  if 48 ≤ c.toNat && c.toNat ≤ 57 then c.toNat - 48
  else if 97 ≤ c.toNat && c.toNat ≤ 102 then c.toNat - 97 + 10
  else c.toNat - 65 + 10

/-- Whitespace skipped by a scan verb: the `fmt` scanner's space table
(the newline inside the 0x09-0x0d range is handled before this test, as
in the Go `SkipSpace`, and fails the scan since the format has none). -/
def isScanSpace (c : Char) : Bool :=
  (0x09 ≤ c.toNat && c.toNat ≤ 0x0d) || c.toNat = 0x20 || c.toNat = 0x85
    || c.toNat = 0xa0 || c.toNat = 0x1680 || (0x2000 ≤ c.toNat && c.toNat ≤ 0x200a)
    || c.toNat = 0x2028 || c.toNat = 0x2029 || c.toNat = 0x202f
    || c.toNat = 0x205f || c.toNat = 0x3000

/-- Whitespace skipping of one scan field, with the remaining rune budget;
a newline fails the whole scan. -/
def skipSpaces : Nat → List Char → Option (Nat × List Char)
  | 0, l => some (0, l)
  | b+1, [] => some (b+1, [])
  | b+1, c :: rest =>
    if c = '\n' then none
    else if isScanSpace c then skipSpaces b rest
    else some (b+1, c :: rest)

/-- Greedy hex-digit reading with a rune budget; returns the value, the
number of digits consumed, and the rest of the input. -/
def readHexAux : Nat → List Char → Nat → Nat → Nat × Nat × List Char
  | 0, l, acc, n => (acc, n, l)
  | _+1, [], acc, n => (acc, n, [])
  | b+1, c :: rest, acc, n =>
    if isHexDigit c then readHexAux b rest (acc * 16 + hexVal c) (n + 1)
    else (acc, n, c :: rest)

/-- One `%02x` scan field. -/
def scanHex2 (l : List Char) : Option (Nat × List Char) :=
  match skipSpaces 2 l with
  | none => none
  | some (b, rest) =>
    let r := readHexAux b rest 0 0
    if r.2.1 = 0 then none else some (r.1, r.2.2)

/-- The whole `fmt.Sscanf(hex, "%02x%02x%02x", &r, &g, &b)` call; leftover
input is ignored. -/
def sscanf3x2 (l : List Char) : Option (Nat × Nat × Nat) :=
  match scanHex2 l with
  | none => none
  | some (r, l1) =>
    match scanHex2 l1 with
    | none => none
    | some (g, l2) =>
      match scanHex2 l2 with
      | none => none
      | some (b, _) => some (r, g, b)

/-- A UTF-8 continuation byte (0x80-0xbf). -/
def utf8Cont (b : Nat) : Bool := 0x80 ≤ b && b ≤ 0xbf

/-- Go `utf8.DecodeRune` on a byte list: the decoded code point and the
number of bytes consumed; every malformed prefix yields U+FFFD consuming
one byte, surrogates and overlong or out-of-range encodings are
malformed. -/
def decodeOne (b0 : Nat) (rest : List Nat) : Nat × Nat :=
  if b0 < 0x80 then (b0, 1)
  else if b0 < 0xc2 || 0xf4 < b0 then (0xfffd, 1)
  else if b0 ≤ 0xdf then
    match rest with
    | b1 :: _ =>
      if utf8Cont b1 then ((b0 - 0xc0) * 0x40 + (b1 - 0x80), 2) else (0xfffd, 1)
    | [] => (0xfffd, 1)
  else if b0 ≤ 0xef then
    match rest with
    | b1 :: b2 :: _ =>
      if (if b0 = 0xe0 then 0xa0 ≤ b1 && b1 ≤ 0xbf
          else if b0 = 0xed then 0x80 ≤ b1 && b1 ≤ 0x9f
          else utf8Cont b1) && utf8Cont b2
      then ((b0 - 0xe0) * 0x1000 + (b1 - 0x80) * 0x40 + (b2 - 0x80), 3)
      else (0xfffd, 1)
    | _ => (0xfffd, 1)
  else
    match rest with
    | b1 :: b2 :: b3 :: _ =>
      if (if b0 = 0xf0 then 0x90 ≤ b1 && b1 ≤ 0xbf
          else if b0 = 0xf4 then 0x80 ≤ b1 && b1 ≤ 0x8f
          else utf8Cont b1) && utf8Cont b2 && utf8Cont b3
      then ((b0 - 0xf0) * 0x40000 + (b1 - 0x80) * 0x1000 + (b2 - 0x80) * 0x40
        + (b3 - 0x80), 4)
      else (0xfffd, 1)
    | _ => (0xfffd, 1)

/-- Fueled UTF-8 decoding of a byte list into runes, as the `fmt`
scanner's `ReadRune` does byte by byte. -/
def decodeUTF8Aux : Nat → List Nat → List Char
  | 0, _ => []
  | _+1, [] => []
  | fuel+1, b :: rest =>
    let p := decodeOne b rest
    Char.ofNat p.1 :: decodeUTF8Aux fuel (List.drop (p.2 - 1) rest)

/-- UTF-8 decoding of a byte list (the length is enough fuel, since every
step consumes at least one byte). -/
def decodeUTF8 (l : List Nat) : List Char := decodeUTF8Aux l.length l

/-- Model of the `#` stripping at the top of `ParseHex` (drop the first
byte when the string is nonempty and starts with the byte 0x23). -/
def stripHash (l : List Nat) : List Nat :=
  match l with
  | c :: rest => if c = 35 then rest else c :: rest
  | [] => []

/-- Model of the 3-to-6 byte expansion of `ParseHex`. -/
def expand3 (l : List Nat) : List Nat :=
  match l with
  | [a, b, c] => [a, a, b, b, c, c]
  | l => l

/-- Model of Go `ParseHex` over the string's bytes: strip `#`, expand
3-byte inputs, require byte length 6, scan the UTF-8 runes with
`%02x%02x%02x`, quantize. -/
def parseHex (l : List Nat) : Option Nat :=
  let l2 := expand3 (stripHash l)
  if l2.length ≠ 6 then none
  else
    match sscanf3x2 (decodeUTF8 l2) with
    | none => none
    | some (r, g, b) => some (quantizeRGB r g b)

/-- An ASCII hexadecimal digit byte. -/
def isHexByte (b : Nat) : Bool :=
  (48 ≤ b && b ≤ 57) || (97 ≤ b && b ≤ 102) || (65 ≤ b && b ≤ 70)

/-- Value of an ASCII hexadecimal digit byte. -/
def hexValByte (b : Nat) : Nat :=
  if 48 ≤ b && b ≤ 57 then b - 48
  else if 97 ≤ b && b ≤ 102 then b - 97 + 10
  else b - 65 + 10

/-- A hex digit is not scanner whitespace, not a newline and not `#`. -/
theorem isHexDigit_not_special (c : Char) (h : isHexDigit c = true) :
    isScanSpace c = false ∧ c ≠ '\n' ∧ c ≠ '#' := by
  simp only [isHexDigit, Bool.or_eq_true, Bool.and_eq_true, decide_eq_true_eq] at h
  refine ⟨?_, ?_, ?_⟩
  · by_contra hb
    have hs : isScanSpace c = true := by
      cases hss : isScanSpace c
      · exact absurd hss hb
      · rfl
    simp only [isScanSpace, Bool.or_eq_true, Bool.and_eq_true, decide_eq_true_eq] at hs
    omega
  · intro he
    subst he
    exact absurd h (by decide)
  · intro he
    subst he
    exact absurd h (by decide)

/-- A `%02x` field on two leading hex digits reads exactly those two. -/
theorem scanHex2_two (a b : Char) (rest : List Char)
    (ha : isHexDigit a = true) (hb : isHexDigit b = true) :
    scanHex2 (a :: b :: rest) = some (hexVal a * 16 + hexVal b, rest) := by
  obtain ⟨hsa, hna, -⟩ := isHexDigit_not_special a ha
  obtain ⟨hsb, hnb, -⟩ := isHexDigit_not_special b hb
  rw [scanHex2, skipSpaces, if_neg hna, if_neg (by simp [hsa])]
  simp only [readHexAux, ha, hb, if_true]
  norm_num

/-- The scan of six hex digits succeeds with the three byte pairs. -/
theorem sscanf3x2_hex (a b c d e f : Char)
    (ha : isHexDigit a = true) (hb : isHexDigit b = true)
    (hc : isHexDigit c = true) (hd : isHexDigit d = true)
    (he : isHexDigit e = true) (hf : isHexDigit f = true) :
    sscanf3x2 [a, b, c, d, e, f] =
      some (hexVal a * 16 + hexVal b, hexVal c * 16 + hexVal d,
        hexVal e * 16 + hexVal f) := by
  simp only [sscanf3x2, scanHex2_two a b _ ha hb, scanHex2_two c d _ hc hd,
    scanHex2_two e f _ he hf]

/-- A hex digit byte is below 128. -/
theorem isHexByte_lt (b : Nat) (h : isHexByte b = true) : b < 128 := by
  simp only [isHexByte, Bool.or_eq_true, Bool.and_eq_true, decide_eq_true_eq] at h
  omega

/-- Characters of valid scalar values round-trip through `Char.ofNat`. -/
theorem toNat_ofNat_valid (n : Nat) (h : n < 0xD800) : (Char.ofNat n).toNat = n := by
  have hv : n.isValidChar := Or.inl h
  rw [Char.ofNat, dif_pos hv]
  simp [Char.ofNatAux, Char.toNat, UInt32.toNat]

/-- An ASCII hex byte decodes to a hex digit rune of the same value. -/
theorem hexByte_char (b : Nat) (h : isHexByte b = true) :
    isHexDigit (Char.ofNat b) = true ∧ hexVal (Char.ofNat b) = hexValByte b := by
  have hlt := isHexByte_lt b h
  have hv : (Char.ofNat b).toNat = b := toNat_ofNat_valid b (by omega)
  simp only [isHexByte, Bool.or_eq_true, Bool.and_eq_true, decide_eq_true_eq] at h
  constructor
  · simp only [isHexDigit, hv, Bool.or_eq_true, Bool.and_eq_true, decide_eq_true_eq]
    omega
  · simp only [hexVal, hexValByte, hv]

/-- An ASCII byte decodes as itself. -/
theorem decodeUTF8_ascii_cons (b : Nat) (hb : b < 128) (l : List Nat) :
    decodeUTF8 (b :: l) = Char.ofNat b :: decodeUTF8 l := by
  simp [decodeUTF8, decodeUTF8Aux, decodeOne, hb]

/-- C6 fails as stated: `"ff00fg"` (bytes 102 102 48 48 102 103) contains
the non-hex byte `g`, yet `ParseHex` succeeds (with 196): the third
`%02x` field greedily reads the single digit `f` and `Sscanf` ignores the
leftover `g`.  Moreover the bytes 0x66 0xC2 0xA0 0x66 0x30 0x66 (`f`,
no-break space, `f`, `0`, `f`) are six bytes but five runes and contain a
non-digit, yet `ParseHex` succeeds with 232, because the length check
counts bytes and the scanner skips the no-break space. -/
theorem parseHex_nonhex_counterexample :
    parseHex [102, 102, 48, 48, 102, 103] = some 196 ∧ isHexByte 103 = false
    ∧ parseHex [0x66, 0xc2, 0xa0, 0x66, 0x30, 0x66] = some 232
    ∧ (decodeUTF8 [0x66, 0xc2, 0xa0, 0x66, 0x30, 0x66]).length = 5 := by
  refine ⟨by decide, by decide, by decide, by decide⟩

/-- C6 amended: after stripping one optional `#` byte and expanding
3-byte inputs, `ParseHex` fails whenever the resulting byte length is not
6, succeeds on every all-hex-digit input of length 3 or 6 (returning
`quantizeRGB` of the digit pairs, 3-digit inputs expanded), and fails on
the five listed inputs; but a 6-byte input may succeed despite containing
a non-hex or non-ASCII character, because the length test counts bytes
while each scan field skips whitespace runes (against its two-rune width)
and reads greedily at most two hex digits, ignoring trailing input. -/
theorem parseHex_amended :
    (∀ a b c d e f : Nat, isHexByte a = true → isHexByte b = true →
      isHexByte c = true → isHexByte d = true → isHexByte e = true →
      isHexByte f = true →
      parseHex [a, b, c, d, e, f] =
        some (quantizeRGB (hexValByte a * 16 + hexValByte b)
          (hexValByte c * 16 + hexValByte d) (hexValByte e * 16 + hexValByte f))
      ∧ parseHex (35 :: [a, b, c, d, e, f]) =
        some (quantizeRGB (hexValByte a * 16 + hexValByte b)
          (hexValByte c * 16 + hexValByte d) (hexValByte e * 16 + hexValByte f)))
    ∧ (∀ a b c : Nat, isHexByte a = true → isHexByte b = true →
      isHexByte c = true →
      parseHex [a, b, c] =
        some (quantizeRGB (hexValByte a * 16 + hexValByte a)
          (hexValByte b * 16 + hexValByte b) (hexValByte c * 16 + hexValByte c))
      ∧ parseHex (35 :: [a, b, c]) =
        some (quantizeRGB (hexValByte a * 16 + hexValByte a)
          (hexValByte b * 16 + hexValByte b) (hexValByte c * 16 + hexValByte c)))
    ∧ (∀ l : List Nat, (expand3 (stripHash l)).length ≠ 6 → parseHex l = none)
    ∧ parseHex [] = none ∧ parseHex [102, 102] = none
    ∧ parseHex [102, 102, 48, 48, 48, 48, 49] = none
    ∧ parseHex [103, 103, 103, 103, 103, 103] = none
    ∧ parseHex [102, 102, 48, 48, 103, 103] = none
    ∧ parseHex [102, 48, 48] = some 196 ∧ parseHex [35, 102, 48, 48] = some 196
    ∧ parseHex [102, 102, 48, 48, 48, 48] = some 196
    ∧ parseHex [35, 102, 102, 48, 48, 48, 48] = some 196
    ∧ parseHex [102, 102, 48, 48, 102, 103] = some (quantizeRGB 255 0 15) := by
  have hdec6 : ∀ a b c d e f : Nat, a < 128 → b < 128 → c < 128 → d < 128 →
      e < 128 → f < 128 →
      decodeUTF8 [a, b, c, d, e, f] =
        [Char.ofNat a, Char.ofNat b, Char.ofNat c, Char.ofNat d, Char.ofNat e,
          Char.ofNat f] := by
    intro a b c d e f ha hb hc hd he hf
    rw [decodeUTF8_ascii_cons a ha, decodeUTF8_ascii_cons b hb, decodeUTF8_ascii_cons c hc,
      decodeUTF8_ascii_cons d hd, decodeUTF8_ascii_cons e he, decodeUTF8_ascii_cons f hf]
    rfl
  have core6 : ∀ (l : List Nat) (a b c d e f : Nat),
      stripHash l = [a, b, c, d, e, f] → isHexByte a = true → isHexByte b = true →
      isHexByte c = true → isHexByte d = true → isHexByte e = true →
      isHexByte f = true →
      parseHex l =
        some (quantizeRGB (hexValByte a * 16 + hexValByte b)
          (hexValByte c * 16 + hexValByte d) (hexValByte e * 16 + hexValByte f)) := by
    intro l a b c d e f hl ha hb hc hd he hf
    obtain ⟨hca, hva⟩ := hexByte_char a ha
    obtain ⟨hcb, hvb⟩ := hexByte_char b hb
    obtain ⟨hcc, hvc⟩ := hexByte_char c hc
    obtain ⟨hcd, hvd⟩ := hexByte_char d hd
    obtain ⟨hce, hve⟩ := hexByte_char e he
    obtain ⟨hcf, hvf⟩ := hexByte_char f hf
    rw [parseHex]
    simp only [hl, expand3]
    rw [if_neg (by simp),
      hdec6 a b c d e f (isHexByte_lt a ha) (isHexByte_lt b hb) (isHexByte_lt c hc)
        (isHexByte_lt d hd) (isHexByte_lt e he) (isHexByte_lt f hf),
      sscanf3x2_hex _ _ _ _ _ _ hca hcb hcc hcd hce hcf, hva, hvb, hvc, hvd, hve, hvf]
  have core3 : ∀ (l : List Nat) (a b c : Nat),
      stripHash l = [a, b, c] → isHexByte a = true → isHexByte b = true →
      isHexByte c = true →
      parseHex l =
        some (quantizeRGB (hexValByte a * 16 + hexValByte a)
          (hexValByte b * 16 + hexValByte b) (hexValByte c * 16 + hexValByte c)) := by
    intro l a b c hl ha hb hc
    obtain ⟨hca, hva⟩ := hexByte_char a ha
    obtain ⟨hcb, hvb⟩ := hexByte_char b hb
    obtain ⟨hcc, hvc⟩ := hexByte_char c hc
    rw [parseHex]
    simp only [hl, expand3]
    rw [if_neg (by simp),
      hdec6 a a b b c c (isHexByte_lt a ha) (isHexByte_lt a ha) (isHexByte_lt b hb)
        (isHexByte_lt b hb) (isHexByte_lt c hc) (isHexByte_lt c hc),
      sscanf3x2_hex _ _ _ _ _ _ hca hca hcb hcb hcc hcc, hva, hvb, hvc]
  have hashStrip : ∀ l : List Nat, stripHash (35 :: l) = l := by
    intro l
    simp [stripHash]
  have noHashStrip : ∀ (a : Nat) (l : List Nat), isHexByte a = true →
      stripHash (a :: l) = a :: l := by
    intro a l ha
    have : a ≠ 35 := by
      simp only [isHexByte, Bool.or_eq_true, Bool.and_eq_true, decide_eq_true_eq] at ha
      omega
    simp [stripHash, this]
  refine ⟨?_, ?_, ?_, by decide, by decide, by decide, by decide, by decide,
    by decide, by decide, by decide, by decide, by decide⟩
  · intro a b c d e f ha hb hc hd he hf
    exact ⟨core6 _ a b c d e f (noHashStrip a _ ha) ha hb hc hd he hf,
      core6 _ a b c d e f (hashStrip _) ha hb hc hd he hf⟩
  · intro a b c ha hb hc
    exact ⟨core3 _ a b c (noHashStrip a _ ha) ha hb hc,
      core3 _ a b c (hashStrip _) ha hb hc⟩
  · intro l hlen
    rw [parseHex, if_pos hlen]

/-- Witness for the amended C6 on the all-hex input `"ff0000"` (bytes
102 102 48 48 48 48). -/
theorem parseHex_amended_witness :
    parseHex [102, 102, 48, 48, 48, 48] =
      some (quantizeRGB (hexValByte 102 * 16 + hexValByte 102)
        (hexValByte 48 * 16 + hexValByte 48) (hexValByte 48 * 16 + hexValByte 48)) :=
  (parseHex_amended.1 102 102 48 48 48 48 (by decide) (by decide) (by decide)
    (by decide) (by decide) (by decide)).1

/-! ## The rendering pipeline (braille.go, Convert)

The resampler, the terminal size and the `NO_COLOR` environment override
are external collaborators: `convert` takes the resized pixel grid as a
function of the target dimensions, and the terminal size and environment
flag as parameters. -/

/-- Model of Go `ansiFgColor`. -/
def ansiFgColor (code : Nat) : List Char :=
  "\x1b[38;5;".data ++ Nat.toDigits 10 code ++ ['m']

/-- Model of Go `ansiFgBgColor`. -/
def ansiFgBgColor (fg bg : Nat) : List Char :=
  "\x1b[38;5;".data ++ Nat.toDigits 10 fg ++ ";48;5;".data ++ Nat.toDigits 10 bg ++ ['m']

/-- The position list of Go `extractBlock` (canonical braille dot order). -/
def dotPositions (x0 y0 : Nat) : List (Nat × Nat) :=
  [(x0, y0), (x0, y0 + 1), (x0, y0 + 2), (x0 + 1, y0),
   (x0, y0 + 3), (x0 + 1, y0 + 1), (x0 + 1, y0 + 2), (x0 + 1, y0 + 3)]

/-- Model of Go `extractBlock`: sample the eight dot positions, black for
positions beyond the grid (sample coordinates are never negative). -/
def extractBlock (g : Grid) (x0 y0 : Nat) : Nat → RGBA := fun i =>
  let p := (dotPositions x0 y0).getD i (x0, y0)
  if p.1 < g.w ∧ p.2 < g.h then g.pix p.1 p.2 else blackPix

/-- Model of Go `blockToANSI`: average the 16-bit channel sums (the Go
`c.RGBA()` values are `v*0x101`), convert back to 8 bits, quantize. -/
def blockToANSI (block : Nat → RGBA) : Nat :=
  let rSum := ((List.range 8).map fun i => (block i).r * 257).sum
  let gSum := ((List.range 8).map fun i => (block i).g * 257).sum
  let bSum := ((List.range 8).map fun i => (block i).b * 257).sum
  quantizeRGB (rSum / 8 / 256) (gSum / 8 / 256) (bSum / 8 / 256)

/-- Model of Go `Options` (braille.go). -/
structure Options where
  width : Int
  height : Int
  threshold : Nat
  noColor : Bool
  backgroundColor : Option Nat
  frame : Bool

/-- One rendered cell of the Convert loop: the braille rune, optionally
wrapped in color escapes (foreground only, or foreground plus background
when a background code is set). -/
def cellStr (noColor : Bool) (bg : Option Nat) (fg : Nat) (ch : Char) : List Char :=
  if !noColor then
    match bg with
    | some bgc => ansiFgBgColor fg bgc ++ [ch] ++ ansiReset
    | none => ansiFgColor fg ++ [ch] ++ ansiReset
  else [ch]

/-- Model of Go `Convert` (braille.go): default the threshold, apply the
`NO_COLOR` override, resolve dimensions (terminal-constrained when either
requested dimension is 0, frame margins subtracted as in the source),
resize (modelled by `resizeF`), render the cell grid, and optionally add
the frame. -/
def convert (termW termH : Int) (envNoColor : Bool)
    (resizeF : Int → Int → Int → Int → RGBA) (imgW imgH : Int) (opts : Options) :
    List (List Char) :=
  let threshold := if opts.threshold = 0 then 20 else opts.threshold
  let noColor := opts.noColor || envNoColor
  let wh :=
    if opts.width = 0 ∨ opts.height = 0 then
      calculateDimensions imgW imgH opts.width opts.height
        (if opts.frame then termW - 2 else termW)
        (if opts.frame then termH - 2 else termH)
    else if opts.frame then
      ((if opts.width - 2 < 1 then 1 else opts.width - 2),
       (if opts.height - 2 < 1 then 1 else opts.height - 2))
    else (opts.width, opts.height)
  let grid : Grid := ⟨(wh.1 * 2).toNat, (wh.2 * 4).toNat, resizeF (wh.1 * 2) (wh.2 * 4)⟩
  let brailleLines := (List.range wh.2.toNat).map fun row =>
    ((List.range wh.1.toNat).map fun col =>
      let block := extractBlock grid (col * 2) (row * 4)
      cellStr noColor opts.backgroundColor (blockToANSI block)
        (Char.ofNat (blockToBraille block threshold))).flatten
  if opts.frame then addFrame brailleLines noColor else brailleLines

/-! Substring machinery for the background-escape claims.  `containsSub p
l` is the formal meaning of "`l` contains the substring `p`". -/

/-- Boolean prefix test. -/
def startsWith : List Char → List Char → Bool
  | [], _ => true
  | _ :: _, [] => false
  | c :: p, d :: l => c = d && startsWith p l

/-- Boolean substring test: some suffix of `l` starts with `p`. -/
def containsSub : List Char → List Char → Bool
  | p, [] => startsWith p []
  | p, d :: l => startsWith p (d :: l) || containsSub p l

/-- The background escape introducer substring. -/
def bgPattern : List Char := ";48;5;".data

/-- A list starts with itself followed by anything. -/
theorem startsWith_append_self (p t : List Char) : startsWith p (p ++ t) = true := by
  induction p with
  | nil => rfl
  | cons c p ih => simp [startsWith, ih]

/-- The empty pattern occurs everywhere. -/
theorem containsSub_nil_left (l : List Char) : containsSub [] l = true := by
  cases l with
  | nil => rfl
  | cons d l => simp [containsSub, startsWith]

/-- A list contains any explicitly embedded substring. -/
theorem containsSub_of_append (p pre post : List Char) :
    containsSub p (pre ++ (p ++ post)) = true := by
  induction pre with
  | nil =>
    cases p with
    | nil => simp [containsSub_nil_left]
    | cons c p =>
      have h := startsWith_append_self (c :: p) post
      simp only [List.cons_append] at h
      simp [containsSub, h]
  | cons d pre ih => simp [containsSub, ih]

/-- A prefix match cannot reach past a character that is not in the
pattern. -/
theorem startsWith_cut (p : List Char) (c : Char) (hc : c ∉ p) :
    ∀ xs ys : List Char, startsWith p (xs ++ c :: ys) = startsWith p xs := by
  induction p with
  | nil => intro xs ys; rfl
  | cons a p ih =>
    intro xs ys
    cases xs with
    | nil =>
      have hac : (a = c) = False := by
        simp only [eq_iff_iff, iff_false]
        intro h
        exact hc (h ▸ List.mem_cons_self a p)
      simp [startsWith, hac]
    | cons x xs =>
      show (decide (a = x) && startsWith p (xs ++ c :: ys))
        = (decide (a = x) && startsWith p xs)
      rw [ih (fun h => hc (List.mem_cons_of_mem a h)) xs ys]

/-- Substring occurrences split at any character that is not in the
pattern. -/
theorem containsSub_cut (p : List Char) (c : Char) (hc : c ∉ p) :
    ∀ xs ys : List Char,
      containsSub p (xs ++ c :: ys) = (containsSub p xs || containsSub p ys) := by
  intro xs
  induction xs with
  | nil =>
    intro ys
    have h1 : startsWith p (c :: ys) = startsWith p [] := startsWith_cut p c hc [] ys
    show (startsWith p (c :: ys) || containsSub p ys)
      = (containsSub p [] || containsSub p ys)
    rw [h1]
    rfl
  | cons x xs ih =>
    intro ys
    show (startsWith p (x :: (xs ++ c :: ys)) || containsSub p (xs ++ c :: ys))
      = ((startsWith p (x :: xs) || containsSub p xs) || containsSub p ys)
    rw [ih ys, show x :: (xs ++ c :: ys) = (x :: xs) ++ c :: ys from rfl,
      startsWith_cut p c hc (x :: xs) ys, Bool.or_assoc]

/-- Skipping a leading character that is not in the (nonempty) pattern. -/
theorem containsSub_cons_skip (p : List Char) (c : Char) (hc : c ∉ p)
    (hp : startsWith p [] = false) (l : List Char) :
    containsSub p (c :: l) = containsSub p l := by
  have h := containsSub_cut p c hc [] l
  simp only [List.nil_append] at h
  rw [h, containsSub, hp, Bool.false_or]

/-- Skipping a leading run of a character that is not in the pattern. -/
theorem containsSub_replicate_skip (p : List Char) (c : Char) (hc : c ∉ p)
    (hp : startsWith p [] = false) :
    ∀ (n : Nat) (rest : List Char),
      containsSub p (List.replicate n c ++ rest) = containsSub p rest := by
  intro n
  induction n with
  | zero => intro rest; rfl
  | succ n ih =>
    intro rest
    rw [List.replicate_succ, List.cons_append, containsSub_cons_skip p c hc hp, ih]

/-- Each cube channel index is one of the six levels 0..5. -/
theorem quantizeChannel_le_five (c : Nat) : quantizeChannel c ≤ 5 := by
  simp only [quantizeChannel, levels, List.foldl_cons, List.foldl_nil]
  split_ifs <;> norm_num

/-- Every quantized color code fits in a uint8. -/
theorem quantizeRGB_le_255 (r g b : Nat) : quantizeRGB r g b ≤ 255 := by
  rw [quantizeRGB]
  split
  · simp only [quantizeGrayscale]
    split_ifs <;> omega
  · have hr := quantizeChannel_le_five r
    have hg := quantizeChannel_le_five g
    have hb := quantizeChannel_le_five b
    simp only [quantizeRGBCube]
    omega

/-- Every block color code fits in a uint8. -/
theorem blockToANSI_lt (block : Nat → RGBA) : blockToANSI block < 256 :=
  Nat.lt_succ_of_le (quantizeRGB_le_255 _ _ _)

/-- One loop iteration keeps the dot pattern below 2^8. -/
theorem brailleBit_lt (block : Nat → RGBA) (t i pat : Nat) (hp : pat < 256)
    (hi : i < 8) : brailleBit block t i pat < 256 := by
  rw [brailleBit]
  split
  · have h1 : (1 <<< i) = 2 ^ i := by rw [Nat.shiftLeft_eq, one_mul]
    have h2 : 2 ^ i ≤ 2 ^ 7 := Nat.pow_le_pow_right (by norm_num) (by omega)
    have h3 : pat ||| (1 <<< i) < 2 ^ 8 := Nat.bitwise_lt (by omega) (by omega)
    omega
  · exact hp

/-- The braille codepoint lies in the braille block `[0x2800, 0x2900)`. -/
theorem blockToBraille_range (block : Nat → RGBA) (t : Nat) :
    0x2800 ≤ blockToBraille block t ∧ blockToBraille block t < 0x2900 := by
  have h0 : brailleBit block t 0 0 < 256 := brailleBit_lt _ _ _ _ (by norm_num) (by norm_num)
  have h1 := brailleBit_lt block t 1 _ h0 (by norm_num)
  have h2 := brailleBit_lt block t 2 _ h1 (by norm_num)
  have h3 := brailleBit_lt block t 3 _ h2 (by norm_num)
  have h4 := brailleBit_lt block t 4 _ h3 (by norm_num)
  have h5 := brailleBit_lt block t 5 _ h4 (by norm_num)
  have h6 := brailleBit_lt block t 6 _ h5 (by norm_num)
  have h7 := brailleBit_lt block t 7 _ h6 (by norm_num)
  rw [blockToBraille]
  omega

/-- Characters of the braille block do not occur in the background escape
pattern. -/
theorem braille_not_mem_bgPattern (c : Char) (h : 0x2800 ≤ c.toNat) :
    c ∉ bgPattern := by
  intro hmem
  have hb : bgPattern = [';', '4', '8', ';', '5', ';'] := rfl
  rw [hb] at hmem
  simp only [List.mem_cons, List.not_mem_nil, or_false] at hmem
  rcases hmem with rfl | rfl | rfl | rfl | rfl | rfl <;> exact absurd h (by decide)

/-- A foreground escape body (bracket prefix and decimal code) never
contains the background pattern, for every uint8 code. -/
theorem digits_no_bgPattern :
    ∀ n : Nat, n < 256 →
      containsSub bgPattern ("[38;5;".data ++ Nat.toDigits 10 n) = false := by
  decide

/-- A color cell without background (foreground escape, braille rune,
reset) contributes no background-pattern occurrence: every occurrence
would have to contain the escape introducer, the terminating `m`, or the
braille rune, none of which appear in the pattern. -/
theorem cellFg_skip (fg : Nat) (hfg : fg < 256) (ch : Char) (hch : 0x2800 ≤ ch.toNat)
    (rest : List Char) :
    containsSub bgPattern (ansiFgColor fg ++ ([ch] ++ (ansiReset ++ rest)))
      = containsSub bgPattern rest := by
  have hstart : startsWith bgPattern [] = false := by decide
  have hesc : ('\x1b' : Char) ∉ bgPattern := by decide
  have hm : ('m' : Char) ∉ bgPattern := by decide
  have hlb : ('[' : Char) ∉ bgPattern := by decide
  have hz : ('0' : Char) ∉ bgPattern := by decide
  have hch' : ch ∉ bgPattern := braille_not_mem_bgPattern ch hch
  have hfull : ansiFgColor fg ++ ([ch] ++ (ansiReset ++ rest)) =
      '\x1b' :: (("[38;5;".data ++ Nat.toDigits 10 fg)
        ++ 'm' :: (ch :: ('\x1b' :: ('[' :: ('0' :: ('m' :: rest)))))) := by
    have e1 : "\x1b[38;5;".data = '\x1b' :: "[38;5;".data := rfl
    have e2 : ansiReset = '\x1b' :: ('[' :: ('0' :: ('m' :: []))) := rfl
    simp [ansiFgColor, e1, e2, List.append_assoc]
  rw [hfull, containsSub_cons_skip bgPattern _ hesc hstart,
    containsSub_cut bgPattern 'm' hm _ _, digits_no_bgPattern fg hfg,
    containsSub_cons_skip bgPattern _ hch' hstart,
    containsSub_cons_skip bgPattern _ hesc hstart,
    containsSub_cons_skip bgPattern _ hlb hstart,
    containsSub_cons_skip bgPattern _ hz hstart,
    containsSub_cons_skip bgPattern _ hm hstart, Bool.false_or]

/-- A rendered color line without background never contains the
background pattern. -/
theorem lineFg_no_bg (f : Nat → Nat) (g : Nat → Char)
    (hf : ∀ c : Nat, f c < 256) (hg : ∀ c : Nat, 0x2800 ≤ (g c).toNat) :
    ∀ cols : List Nat,
      containsSub bgPattern
        ((cols.map fun col => ansiFgColor (f col) ++ [g col] ++ ansiReset).flatten)
        = false := by
  intro cols
  induction cols with
  | nil =>
    simp only [List.map_nil, List.flatten_nil]
    decide
  | cons c cols ih =>
    rw [List.map_cons, List.flatten_cons]
    have hshape : (ansiFgColor (f c) ++ [g c] ++ ansiReset)
          ++ ((cols.map fun col => ansiFgColor (f col) ++ [g col] ++ ansiReset).flatten)
        = ansiFgColor (f c) ++ ([g c] ++ (ansiReset
          ++ ((cols.map fun col => ansiFgColor (f col) ++ [g col] ++ ansiReset).flatten))) := by
      simp [List.append_assoc]
    rw [hshape, cellFg_skip (f c) (hf c) (g c) (hg c), ih]

/-- A plain (color-disabled) rendered line never contains the background
pattern: it is a run of braille runes. -/
theorem linePlain_no_bg (g : Nat → Char) (hg : ∀ c : Nat, 0x2800 ≤ (g c).toNat) :
    ∀ cols : List Nat,
      containsSub bgPattern ((cols.map fun col => [g col]).flatten) = false := by
  intro cols
  induction cols with
  | nil =>
    simp only [List.map_nil, List.flatten_nil]
    decide
  | cons c cols ih =>
    rw [List.map_cons, List.flatten_cons, List.singleton_append,
      containsSub_cons_skip bgPattern _ (braille_not_mem_bgPattern _ (hg c)) (by decide),
      ih]

/-- A cell with a background escape embeds the background pattern
followed by the decimal code. -/
theorem cellBg_has (fg bgc : Nat) (ch : Char) (rest : List Char) :
    containsSub (bgPattern ++ Nat.toDigits 10 bgc)
      ((ansiFgBgColor fg bgc ++ [ch] ++ ansiReset) ++ rest) = true := by
  have hshape : (ansiFgBgColor fg bgc ++ [ch] ++ ansiReset) ++ rest =
      ("\x1b[38;5;".data ++ Nat.toDigits 10 fg)
        ++ ((bgPattern ++ Nat.toDigits 10 bgc)
          ++ ('m' :: ([ch] ++ (ansiReset ++ rest)))) := by
    have e : bgPattern = ';' :: ('4' :: ('8' :: (';' :: ('5' :: (';' :: []))))) := rfl
    simp [ansiFgBgColor, e, List.append_assoc]
  rw [hshape]
  exact containsSub_of_append _ _ _

/-- A framed horizontal border line (color enabled) never contains the
background pattern. -/
theorem frameBar_no_bg (c1 c2 : Char) (h1 : c1 ∉ bgPattern) (h2 : c2 ∉ bgPattern)
    (n : Nat) :
    containsSub bgPattern
      (whiteColorStr ++ [c1] ++ repeatString ['─'] n ++ [c2] ++ ansiReset) = false := by
  have hstart : startsWith bgPattern [] = false := by decide
  have hesc : ('\x1b' : Char) ∉ bgPattern := by decide
  have hm : ('m' : Char) ∉ bgPattern := by decide
  have hlb : ('[' : Char) ∉ bgPattern := by decide
  have hz : ('0' : Char) ∉ bgPattern := by decide
  have hbar : ('─' : Char) ∉ bgPattern := by decide
  have hfull : whiteColorStr ++ [c1] ++ repeatString ['─'] n ++ [c2] ++ ansiReset =
      '\x1b' :: ("[38;5;15".data ++ 'm' :: (c1 :: (List.replicate n '─'
        ++ c2 :: ('\x1b' :: ('[' :: ('0' :: ('m' :: []))))))) := by
    have e1 : whiteColorStr = '\x1b' :: ("[38;5;15".data ++ ['m']) := rfl
    have e2 : ansiReset = '\x1b' :: ('[' :: ('0' :: ('m' :: []))) := rfl
    simp [e1, e2, repeatString_single, List.append_assoc]
  rw [hfull, containsSub_cons_skip bgPattern _ hesc hstart,
    containsSub_cut bgPattern 'm' hm _ _,
    (by decide : containsSub bgPattern "[38;5;15".data = false),
    containsSub_cons_skip bgPattern _ h1 hstart,
    containsSub_replicate_skip bgPattern _ hbar hstart,
    containsSub_cons_skip bgPattern _ h2 hstart,
    containsSub_cons_skip bgPattern _ hesc hstart,
    containsSub_cons_skip bgPattern _ hlb hstart,
    containsSub_cons_skip bgPattern _ hz hstart,
    containsSub_cons_skip bgPattern _ hm hstart, Bool.false_or]
  decide

/-- A framed horizontal border line (color disabled) never contains the
background pattern. -/
theorem frameBarPlain_no_bg (c1 c2 : Char) (h1 : c1 ∉ bgPattern) (h2 : c2 ∉ bgPattern)
    (n : Nat) :
    containsSub bgPattern ([] ++ [c1] ++ repeatString ['─'] n ++ [c2] ++ []) = false := by
  have hstart : startsWith bgPattern [] = false := by decide
  have hbar : ('─' : Char) ∉ bgPattern := by decide
  have hfull : ([] : List Char) ++ [c1] ++ repeatString ['─'] n ++ [c2] ++ [] =
      c1 :: (List.replicate n '─' ++ c2 :: []) := by
    simp [repeatString_single, List.append_assoc]
  rw [hfull, containsSub_cons_skip bgPattern _ h1 hstart,
    containsSub_replicate_skip bgPattern _ hbar hstart,
    containsSub_cons_skip bgPattern _ h2 hstart]
  decide

/-- A framed side line (color enabled) around a background-free content
line never contains the background pattern. -/
theorem frameSide_no_bg (line : List Char) (hline : containsSub bgPattern line = false) :
    containsSub bgPattern
      (whiteColorStr ++ ['│'] ++ ansiReset ++ line ++ whiteColorStr ++ ['│'] ++ ansiReset)
      = false := by
  have hstart : startsWith bgPattern [] = false := by decide
  have hesc : ('\x1b' : Char) ∉ bgPattern := by decide
  have hm : ('m' : Char) ∉ bgPattern := by decide
  have hlb : ('[' : Char) ∉ bgPattern := by decide
  have hz : ('0' : Char) ∉ bgPattern := by decide
  have hv : ('│' : Char) ∉ bgPattern := by decide
  have hfull : whiteColorStr ++ ['│'] ++ ansiReset ++ line ++ whiteColorStr ++ ['│']
        ++ ansiReset =
      '\x1b' :: ("[38;5;15".data ++ 'm' :: ('│' :: ('\x1b' :: ('[' :: ('0' :: ('m' ::
        (line ++ '\x1b' :: ("[38;5;15".data ++ 'm' :: ('│' :: ('\x1b' :: ('[' :: ('0'
          :: ('m' :: []))))))))))))) := by
    have e1 : whiteColorStr = '\x1b' :: ("[38;5;15".data ++ ['m']) := rfl
    have e2 : ansiReset = '\x1b' :: ('[' :: ('0' :: ('m' :: []))) := rfl
    simp [e1, e2, List.append_assoc]
  rw [hfull, containsSub_cons_skip bgPattern _ hesc hstart,
    containsSub_cut bgPattern 'm' hm _ _,
    (by decide : containsSub bgPattern "[38;5;15".data = false),
    containsSub_cons_skip bgPattern _ hv hstart,
    containsSub_cons_skip bgPattern _ hesc hstart,
    containsSub_cons_skip bgPattern _ hlb hstart,
    containsSub_cons_skip bgPattern _ hz hstart,
    containsSub_cons_skip bgPattern _ hm hstart,
    containsSub_cut bgPattern '\x1b' hesc line _, hline,
    containsSub_cut bgPattern 'm' hm _ _,
    (by decide : containsSub bgPattern "[38;5;15".data = false),
    containsSub_cons_skip bgPattern _ hv hstart,
    containsSub_cons_skip bgPattern _ hesc hstart,
    containsSub_cons_skip bgPattern _ hlb hstart,
    containsSub_cons_skip bgPattern _ hz hstart,
    containsSub_cons_skip bgPattern _ hm hstart]
  decide

/-- A framed side line (color disabled) around a background-free content
line never contains the background pattern. -/
theorem frameSidePlain_no_bg (line : List Char)
    (hline : containsSub bgPattern line = false) :
    containsSub bgPattern ([] ++ ['│'] ++ [] ++ line ++ [] ++ ['│'] ++ []) = false := by
  have hstart : startsWith bgPattern [] = false := by decide
  have hv : ('│' : Char) ∉ bgPattern := by decide
  have hfull : ([] : List Char) ++ ['│'] ++ [] ++ line ++ [] ++ ['│'] ++ [] =
      '│' :: (line ++ '│' :: []) := by
    simp [List.append_assoc]
  rw [hfull, containsSub_cons_skip bgPattern _ hv hstart,
    containsSub_cut bgPattern '│' hv line [], hline]
  decide

/-- A full rendered content line of `convert` with no background color set
never contains the background pattern (either color mode). -/
theorem renderLine_no_bg (nc : Bool) (fgf chf : Nat → Nat) (w : Nat)
    (hfg : ∀ col : Nat, fgf col < 256)
    (hch : ∀ col : Nat, 0x2800 ≤ chf col ∧ chf col < 0xD800) :
    containsSub bgPattern
      (((List.range w).map fun col =>
        cellStr nc none (fgf col) (Char.ofNat (chf col))).flatten) = false := by
  have hch' : ∀ col : Nat, 0x2800 ≤ (Char.ofNat (chf col)).toNat := by
    intro col
    rw [toNat_ofNat_valid _ (hch col).2]
    exact (hch col).1
  cases nc with
  | false =>
    have he : (fun col => cellStr false none (fgf col) (Char.ofNat (chf col)))
        = fun col => ansiFgColor (fgf col) ++ [Char.ofNat (chf col)] ++ ansiReset := by
      funext col
      rfl
    rw [he]
    exact lineFg_no_bg _ _ hfg hch' (List.range w)
  | true =>
    have he : (fun col => cellStr true none (fgf col) (Char.ofNat (chf col)))
        = fun col => [Char.ofNat (chf col)] := by
      funext col
      rfl
    rw [he]
    exact linePlain_no_bg _ hch' (List.range w)

/-- Framing preserves freedom from the background pattern. -/
theorem addFrame_no_bg (lines : List (List Char)) (nc : Bool)
    (h : ∀ l ∈ lines, containsSub bgPattern l = false) :
    ∀ line ∈ addFrame lines nc, containsSub bgPattern line = false := by
  cases lines with
  | nil =>
    intro line hline
    simp [addFrame] at hline
  | cons l0 rest =>
    intro line hline
    have he : addFrame (l0 :: rest) nc =
        ((if !nc then whiteColorStr else []) ++ ['┌']
          ++ repeatString ['─'] (if !nc then visibleWidth l0 else byteLen l0) ++ ['┐']
          ++ (if !nc then ansiReset else []))
        :: (((l0 :: rest).map fun l =>
              (if !nc then whiteColorStr else []) ++ ['│']
                ++ (if !nc then ansiReset else []) ++ l
                ++ (if !nc then whiteColorStr else []) ++ ['│']
                ++ (if !nc then ansiReset else []))
          ++ [(if !nc then whiteColorStr else []) ++ ['└']
              ++ repeatString ['─'] (if !nc then visibleWidth l0 else byteLen l0) ++ ['┘']
              ++ (if !nc then ansiReset else [])]) := rfl
    rw [he] at hline
    cases hnc : nc <;> subst hnc <;>
      simp only [Bool.not_false, Bool.not_true, Bool.false_eq_true, eq_self_iff_true,
        if_true, if_false] at hline <;>
      rcases List.mem_cons.mp hline with rfl | h2
    · exact frameBar_no_bg '┌' '┐' (by decide) (by decide) _
    · rcases List.mem_append.mp h2 with hs | hb
      · rcases List.mem_map.mp hs with ⟨l', hl', rfl⟩
        exact frameSide_no_bg l' (h l' hl')
      · rw [List.mem_singleton] at hb
        subst hb
        exact frameBar_no_bg '└' '┘' (by decide) (by decide) _
    · exact frameBarPlain_no_bg '┌' '┐' (by decide) (by decide) _
    · rcases List.mem_append.mp h2 with hs | hb
      · rcases List.mem_map.mp hs with ⟨l', hl', rfl⟩
        exact frameSidePlain_no_bg l' (h l' hl')
      · rw [List.mem_singleton] at hb
        subst hb
        exact frameBarPlain_no_bg '└' '┘' (by decide) (by decide) _

/-- C9 amended: when `BackgroundColor` is nil no line of `Convert` ever
contains the substring `;48;5;` (any color mode, any frame setting, any
resolved dimensions); when it is set to a code `c` every line contains
`;48;5;` followed by `c` in decimal, provided color output is in effect
(`NoColor` false, no `NO_COLOR` override), no frame is requested, and
both dimensions are explicitly positive. -/
theorem convert_background_amended :
    (∀ (termW termH : Int) (envNoColor : Bool)
      (resizeF : Int → Int → Int → Int → RGBA) (imgW imgH : Int) (opts : Options),
      opts.backgroundColor = none →
      ∀ line ∈ convert termW termH envNoColor resizeF imgW imgH opts,
        containsSub bgPattern line = false)
    ∧ (∀ (termW termH : Int) (resizeF : Int → Int → Int → Int → RGBA)
      (imgW imgH : Int) (opts : Options) (c : Nat),
      opts.backgroundColor = some c → opts.noColor = false → opts.frame = false →
      1 ≤ opts.width → 1 ≤ opts.height →
      ∀ line ∈ convert termW termH false resizeF imgW imgH opts,
        containsSub (bgPattern ++ Nat.toDigits 10 c) line = true) := by
  have hchprop : ∀ (block : Nat → RGBA) (thr : Nat),
      0x2800 ≤ blockToBraille block thr ∧ blockToBraille block thr < 0xD800 := by
    intro block thr
    have hr := blockToBraille_range block thr
    exact ⟨hr.1, by omega⟩
  constructor
  · intro termW termH envNoColor resizeF imgW imgH opts hbg line hline
    rw [convert] at hline
    simp only [hbg] at hline
    by_cases hf : opts.frame = true
    · rw [if_pos hf] at hline
      refine addFrame_no_bg _ _ ?_ line hline
      intro l hl
      rcases List.mem_map.mp hl with ⟨row, -, rfl⟩
      exact renderLine_no_bg _ _ _ _ (fun col => blockToANSI_lt _) (fun col => hchprop _ _)
    · rw [if_neg hf] at hline
      rcases List.mem_map.mp hline with ⟨row, -, rfl⟩
      exact renderLine_no_bg _ _ _ _ (fun col => blockToANSI_lt _) (fun col => hchprop _ _)
  · intro termW termH resizeF imgW imgH opts c hbg hnc hf hw hh line hline
    rw [convert] at hline
    have hw0 : ¬(opts.width = 0 ∨ opts.height = 0) := by omega
    simp only [hbg, hnc, hf, hw0, Bool.or_false, Bool.false_eq_true, if_false,
      eq_self_iff_true, if_true] at hline
    rcases List.mem_map.mp hline with ⟨row, -, rfl⟩
    obtain ⟨m, hm⟩ : ∃ m, opts.width.toNat = m + 1 := ⟨opts.width.toNat - 1, by omega⟩
    rw [hm, List.range_succ_eq_map]
    exact cellBg_has _ _ _ _

/-- C9 fails as stated: an Options value with `BackgroundColor` set to 196
but `NoColor` true renders plain braille lines without any background
escape. -/
theorem convert_background_counterexample :
    convert 80 24 false (fun _ _ _ _ => ⟨255, 0, 0, 255⟩) 8 16
      ⟨1, 1, 128, true, some 196, false⟩ = [['⠀']]
    ∧ containsSub (bgPattern ++ Nat.toDigits 10 196) ['⠀'] = false := by
  constructor
  · decide
  · decide

/-- Witness for the amended C9: the nil direction at a concrete
render. -/
theorem convert_background_amended_witness :
    containsSub bgPattern ['⠀'] = false :=
  convert_background_amended.1 80 24 false (fun _ _ _ _ => ⟨255, 0, 0, 255⟩) 8 16
    ⟨1, 1, 128, true, none, false⟩ rfl ['⠀'] (by decide)

end Dots
